import Mathlib

/-!
# TFHE-homNAND: Torus conversion, round trips, external product and CMUX

Shallow embedding of `gen.hpp` (the floating point to `Torus` conversion and the
random draws built on it) and of the ciphertext layer exercised by `test.cpp`:
TLWE and TRLWE encryption and decryption, TRGSW encryption, the external product
and CMUX.

Conventions of the embedding.

* `Torus` is an unsigned integer type of `w = std::numeric_limits<Torus>::digits`
  bits.  Its declaration (`type-traits.hpp`) is not part of the sources, so `w`
  is a parameter.  A `Torus` value is a `Nat` below `2 ^ w`; every operation
  reduces modulo `2 ^ w` explicitly.
* `double` arithmetic is read exactly: a `double` is an element of an ordered
  field `α` with a floor function (`ℚ` for evaluation, `ℝ` for statements about
  every real).  `std::fmod(x, 1.0)` is `x` minus `x` truncated toward zero and
  `pow(2.0, w)` is `2 ^ w`.
* `static_cast<Torus>` of a `double` truncates toward zero.  C++ defines the
  conversion only when the truncated value is representable, that is in
  `[0, 2 ^ w)`: `cast_torus_defined` is that partial conversion.  `cast_torus`
  is the total conversion of the wrap reading, in which the truncated integer is
  reduced modulo `2 ^ w`; the two agree wherever the first is defined.
* A random engine is an arbitrary state machine: a state type `G` with one
  transition per distribution call.  Functions taking `Gen& rng` take the state
  and return the advanced state next to their result.

Layout: the definitions come first (sources, then the ciphertext layer, then the
ring reading used by the proofs), the lemmas and the claims follow.
-/

namespace TFHE

/-! ## gen.hpp -/

/-- Truncation toward zero of an exact real: the integer part kept by a C++
floating-to-integer conversion. -/
def trunc_to_int {α : Type} [LinearOrderedField α] [FloorRing α] (y : α) : Int :=
  if 0 ≤ y then ⌊y⌋ else ⌈y⌉

/-- Exact `std::fmod(x, 1.0)`: `x - trunc(x)`, a value of the sign of `x` and of
magnitude below one. -/
def fmod_one {α : Type} [LinearOrderedField α] [FloorRing α] (x : α) : α :=
  x - (trunc_to_int x : Int)

/-- Conversion `static_cast<Torus>(y)` under the wrap reading: truncate toward
zero, then keep the low `w` bits.  Where C++ defines the conversion (truncated
value in `[0, 2 ^ w)`) this is its result; elsewhere C++ leaves the conversion
undefined and this is the value of a build that converts through a wider signed
integer and keeps the low bits. -/
def cast_torus {α : Type} [LinearOrderedField α] [FloorRing α] (w : Nat) (y : α) : Nat :=
  (trunc_to_int y % (2 ^ w : Int)).toNat

/-- Embedding of
`Torus double_to_torus(double dbl)`, that is
`static_cast<Torus>(std::fmod(dbl, 1.0) * pow(2.0, digits))`, under the wrap
reading of the cast. -/
def double_to_torus {α : Type} [LinearOrderedField α] [FloorRing α] (w : Nat) (dbl : α) : Nat :=
  cast_torus w (fmod_one dbl * 2 ^ w)

/-- Conversion `static_cast<Torus>(y)` as far as C++ defines it: the value
truncated toward zero when it is representable in `w` unsigned bits, and no
result (`none`, undefined behaviour) when it is negative or reaches `2 ^ w`. -/
def cast_torus_defined {α : Type} [LinearOrderedField α] [FloorRing α] (w : Nat) (y : α) :
    Option Nat :=
  if 0 ≤ trunc_to_int y ∧ trunc_to_int y < (2 ^ w : Int) then some (trunc_to_int y).toNat
  else none

/-- Embedding of `Torus double_to_torus(double dbl)` with the cast as far as C++
defines it: `none` where the source invokes undefined behaviour. -/
def double_to_torus_defined {α : Type} [LinearOrderedField α] [FloorRing α] (w : Nat)
    (dbl : α) : Option Nat :=
  cast_torus_defined w (fmod_one dbl * 2 ^ w)

/-- A random engine of the `RandGen` concept with state type `G`, seen through
the two distributions the library applies to it.  `uniform_int` is one call of
`std::uniform_int_distribution` (the raw value, reduced into the requested range
by the caller) and `normal sd` one call of `std::normal_distribution<>{0.0, sd}`;
both return the advanced engine state. -/
structure RandGen (G : Type) (α : Type) where
  uniform_int : G → Nat × G
  normal : α → G → α × G

/-- Embedding of `uniform_torus_gen(rng)`: a uniform draw over the whole `Torus`
range `[0, 2 ^ w - 1]`. -/
def uniform_torus_gen {G α : Type} (E : RandGen G α) (w : Nat) (rng : G) : Nat × G :=
  let r := E.uniform_int rng
  (r.1 % 2 ^ w, r.2)

/-- Embedding of `normal_torus_gen(alpha, rng)`:
`double_to_torus(std::normal_distribution<>{0.0, alpha}(rng))`. -/
def normal_torus_gen {G α : Type} [LinearOrderedField α] [FloorRing α]
    (E : RandGen G α) (w : Nat) (alpha : α) (rng : G) : Nat × G :=
  let r := E.normal alpha rng
  (double_to_torus w r.1, r.2)

/-! ### Reference encodings the specification is compared with -/

/-- The encoding in the words of the specification: take `x mod 1`, the
representative `x - ⌊x⌋` in `[0, 1)`, scale by `2 ^ w` and round down. -/
def spec_torus_of_frac {α : Type} [LinearOrderedField α] [FloorRing α] (w : Nat) (x : α) : Nat :=
  (⌊(x - (⌊x⌋ : Int)) * 2 ^ w⌋).toNat

/-- Round to the nearest integer, a tie going to the integer further from zero. -/
def round_half_away {α : Type} [LinearOrderedField α] [FloorRing α] (y : α) : Int :=
  if 0 ≤ y then ⌊y + 1 / 2⌋ else ⌈y - 1 / 2⌉

/-- A linear congruential engine used to evaluate the definitions: the state is
a counter, a uniform draw is an affine image of it and a normal draw of
deviation `sd` is `sd * (state mod 7 - 3) / 64`. -/
def demoGen : RandGen Nat ℚ where
  uniform_int := fun g => (g * 1103515245 + 12345, g + 1)
  normal := fun sd g => (sd * (((g % 7 : Nat) : ℚ) - 3) / 64, g + 1)

/-! ## The ciphertext layer (`param.hpp`, `tlwe.cpp`, `trlwe.cpp`)

These files are not part of the sources at hand; `test.cpp` only calls them.
Their embedding follows the specification (sections 3 and 4.1 to 4.3).
A `Torus` polynomial `Poly<Torus, N>` is a list of `N` coefficients below
`2 ^ w`, a binary polynomial a list of `N` booleans. -/

/-- Modelled from the spec: `param.hpp`, the `Parameters` record (section 3):
Torus width, level-0 dimension `n`, ring degree `N`, module rank `k`, the noise
deviations of the two levels, the gadget base `Bg` with its digit count `l`, and
the key-switch base with its digit count. -/
structure Parameters (α : Type) where
  digits : Nat
  n : Nat
  N : Nat
  k : Nat
  alpha0 : α
  alpha1 : α
  Bg : Nat
  l : Nat
  ks_base : Nat
  ks_digits : Nat

/-- Modelled from the spec: the `SecretKey` class (section 3): a binary vector
of length `n` (level 0) and `k` binary polynomials of degree below `N`
(level 1). -/
structure SecretKey where
  lvl0 : List Bool
  lvl1 : List (List Bool)

/-- Modelled from the spec: the `TLWElvl0` ciphertext (section 3), the pair of a
mask `a` of `n` Torus values and a body `b`. -/
structure TLWElvl0 where
  a : List Nat
  b : Nat

/-- Modelled from the spec: the `TRLWE` ciphertext (section 3), `k` mask
polynomials followed by the body polynomial. -/
structure TRLWE where
  a : List (List Nat)
  b : List Nat

/-- Modelled from the spec: Torus addition (section 2, item 1), wrapping by
integer overflow. -/
def torus_add (w x y : Nat) : Nat := (x + y) % 2 ^ w

/-- Modelled from the spec: Torus subtraction (section 2, item 1), wrapping by
integer overflow. -/
def torus_sub (w x y : Nat) : Nat := (x + (2 ^ w - y % 2 ^ w)) % 2 ^ w

/-- Modelled from the spec: the reading of a Torus value as a signed integer
(section 4.2, "interprets φ as signed"): values in the upper half of the range
are negative. -/
def torus_signed (w x : Nat) : Int := if 2 * x < 2 ^ w then (x : Int) else (x : Int) - 2 ^ w

/-- Modelled from the spec: the message encoding `μ` of section 4.2, `+1/8` of
the Torus range for the bit `1` and `-1/8` for the bit `0`. -/
def mu (w : Nat) (bit : Bool) : Nat := if bit then 2 ^ w / 8 else 2 ^ w - 2 ^ w / 8

/-- Modelled from the spec: the threshold of `decrypt_bool` (section 4.2): true
iff the signed phase is nearer `+1/8` than `-1/8`. -/
def nearer_plus_eighth (w phi : Nat) : Bool :=
  decide (|torus_signed w phi - ((2 ^ w / 8 : Nat) : Int)| <
    |torus_signed w phi + ((2 ^ w / 8 : Nat) : Int)|)

/-- Draw `count` uniform Torus values in sequence, threading the engine. -/
def uniform_torus_list {G α : Type} (E : RandGen G α) (w : Nat) : Nat → G → List Nat × G
  | 0, rng => ([], rng)
  | count + 1, rng =>
    let r := uniform_torus_gen E w rng
    let rs := uniform_torus_list E w count r.2
    (r.1 :: rs.1, rs.2)

/-- Draw `count` Gaussian Torus values of deviation `alpha` in sequence. -/
def normal_torus_list {G α : Type} [LinearOrderedField α] [FloorRing α]
    (E : RandGen G α) (w : Nat) (alpha : α) : Nat → G → List Nat × G
  | 0, rng => ([], rng)
  | count + 1, rng =>
    let r := normal_torus_gen E w alpha rng
    let rs := normal_torus_list E w alpha count r.2
    (r.1 :: rs.1, rs.2)

/-- Draw `count` uniform Torus polynomials of `N` coefficients each. -/
def uniform_poly_list {G α : Type} (E : RandGen G α) (w N : Nat) : Nat → G → List (List Nat) × G
  | 0, rng => ([], rng)
  | count + 1, rng =>
    let r := uniform_torus_list E w N rng
    let rs := uniform_poly_list E w N count r.2
    (r.1 :: rs.1, rs.2)

/-- Modelled from the spec: the inner product `⟨a, s⟩` of a Torus vector with a
binary key (section 4.2), reduced modulo `2 ^ w`. -/
def inner_product (w : Nat) : List Nat → List Bool → Nat
  | x :: xs, s :: ss => torus_add w (if s then x else 0) (inner_product w xs ss)
  | _, _ => 0

/-- Modelled from the spec: `TLWElvl0::encrypt` (section 4.2): `n` uniform
Torus values for `a`, then `b = ⟨a, s⟩ + μ(bit) + normal_torus(α₀)`. -/
def TLWElvl0.encrypt {G α : Type} [LinearOrderedField α] [FloorRing α]
    (P : Parameters α) (E : RandGen G α) (s : SecretKey) (bit : Bool) (rng : G) : TLWElvl0 × G :=
  let ra := uniform_torus_list E P.digits P.n rng
  let re := normal_torus_gen E P.digits P.alpha0 ra.2
  ({ a := ra.1,
     b := torus_add P.digits
       (torus_add P.digits (inner_product P.digits ra.1 s.lvl0) (mu P.digits bit)) re.1 },
   re.2)

/-- The Gaussian noise value drawn inside `TLWElvl0.encrypt` started in state
`rng`. -/
def TLWElvl0.encrypt_noise {G α : Type} [LinearOrderedField α] [FloorRing α]
    (P : Parameters α) (E : RandGen G α) (rng : G) : Nat :=
  (normal_torus_gen E P.digits P.alpha0 (uniform_torus_list E P.digits P.n rng).2).1

/-- Modelled from the spec: `TLWElvl0::decrypt_bool` (section 4.2):
`φ = b - ⟨a, s⟩` read as signed, true iff nearer `+1/8` than `-1/8`. -/
def TLWElvl0.decrypt_bool {α : Type} (P : Parameters α) (c : TLWElvl0) (s : SecretKey) : Bool :=
  nearer_plus_eighth P.digits (torus_sub P.digits c.b (inner_product P.digits c.a s.lvl0))

/-- Parameters used to evaluate the definitions: a 16-bit Torus, `n = 3`,
`N = 2`, `k = 1`, gadget base `4` with `4` digits. -/
def demoParams : Parameters ℚ where
  digits := 16
  n := 3
  N := 2
  k := 1
  alpha0 := 1 / 2
  alpha1 := 1 / 64
  Bg := 4
  l := 4
  ks_base := 4
  ks_digits := 4

/-- A secret key for `demoParams`. -/
def demoKey : SecretKey where
  lvl0 := [true, false, true]
  lvl1 := [[true, true]]

/-! ### Polynomials over the Torus -/

/-- Modelled from the spec: coefficientwise addition of Torus polynomials
(section 4.1), each coefficient wrapping modulo `2 ^ w`. -/
def poly_add (w N : Nat) (p q : List Nat) : List Nat :=
  (List.range N).map fun j => torus_add w (p.getD j 0) (q.getD j 0)

/-- Modelled from the spec: coefficientwise subtraction of Torus polynomials
(section 4.1). -/
def poly_sub (w N : Nat) (p q : List Nat) : List Nat :=
  (List.range N).map fun j => torus_sub w (p.getD j 0) (q.getD j 0)

/-- Modelled from the spec: negacyclic convolution modulo `X ^ N + 1` of an
integer polynomial `d` with a Torus polynomial `p` (section 4.1): a product
term whose index would reach `N` is wrapped around with its sign flipped. -/
def poly_mul (w N : Nat) (d : List Int) (p : List Nat) : List Nat :=
  (List.range N).map fun j =>
    ((∑ i in Finset.range N,
        if i ≤ j then d.getD i 0 * (p.getD (j - i) 0 : Int)
        else -(d.getD i 0 * (p.getD (N + j - i) 0 : Int))) % (2 ^ w : Int)).toNat

/-- A binary polynomial as an integer polynomial with coefficients `0` and `1`. -/
def key_poly (s : List Bool) : List Int := s.map fun b => if b then 1 else 0

/-- Modelled from the spec: the ring inner product `Σ aᵢ * sᵢ` of the mask
polynomials with the key polynomials (section 4.3). -/
def ring_inner_product (w N : Nat) : List (List Nat) → List (List Bool) → List Nat
  | x :: xs, s :: ss => poly_add w N (poly_mul w N (key_poly s) x) (ring_inner_product w N xs ss)
  | _, _ => List.replicate N 0

/-- Modelled from the spec: the encoded message polynomial of section 4.3, the
encoding `μ` applied to each of the `N` coefficients. -/
def mu_poly (w N : Nat) (m : List Bool) : List Nat :=
  (List.range N).map fun j => mu w (m.getD j false)

/-! ### TRLWE -/

/-- Modelled from the spec: `TRLWE::encrypt` (section 4.3): `k` uniform mask
polynomials, then the body `Σ aᵢ * sᵢ + μ(m) + e` with one Gaussian draw `e` per
coefficient. -/
def TRLWE.encrypt {G α : Type} [LinearOrderedField α] [FloorRing α]
    (P : Parameters α) (E : RandGen G α) (s : SecretKey) (m : List Bool) (rng : G) : TRLWE × G :=
  let ra := uniform_poly_list E P.digits P.N P.k rng
  let re := normal_torus_list E P.digits P.alpha1 P.N ra.2
  ({ a := ra.1,
     b := poly_add P.digits P.N
       (poly_add P.digits P.N (ring_inner_product P.digits P.N ra.1 s.lvl1)
         (mu_poly P.digits P.N m)) re.1 },
   re.2)

/-- The per-coefficient Gaussian noise drawn inside a TRLWE encryption started
in state `rng`. -/
def TRLWE.encrypt_noise {G α : Type} [LinearOrderedField α] [FloorRing α]
    (P : Parameters α) (E : RandGen G α) (rng : G) : List Nat :=
  (normal_torus_list E P.digits P.alpha1 P.N (uniform_poly_list E P.digits P.N P.k rng).2).1

/-- Modelled from the spec: `TRLWE::decrypt_poly_bool` (section 4.3): subtract
the inner product and threshold each coefficient as `decrypt_bool` does. -/
def TRLWE.decrypt_poly_bool {α : Type} (P : Parameters α) (c : TRLWE) (s : SecretKey) :
    List Bool :=
  (List.range P.N).map fun j =>
    nearer_plus_eighth P.digits
      ((poly_sub P.digits P.N c.b (ring_inner_product P.digits P.N c.a s.lvl1)).getD j 0)

/-! ### TRGSW, external product and CMUX (`trgsw.cpp`)

The file is not part of the sources at hand; the embedding follows section 4.4
of the specification.  A TRGSW ciphertext holds one TRLWE row for each of the
`k + 1` gadget blocks and each of the `l` digits, in block-major order: these
are the `(k + 1) · l` rows the construction of section 4.4 enumerates, each of
`k + 1` polynomials (for `k = 1`, the `2 · l · (k + 1)` polynomials counted in
section 3).  `Bg ^ (-t)` is the Torus constant `2 ^ w / Bg ^ t`. -/

/-- Modelled from the spec: the `TRGSW` ciphertext (section 3), a matrix whose
rows are TRLWE ciphertexts. -/
structure TRGSW where
  rows : List TRLWE

/-- Modelled from the spec: a TRLWE encryption of zero (section 4.4), that is an
encryption whose body is `Σ aᵢ * sᵢ + e` with no message term. -/
def TRLWE.encrypt_zero {G α : Type} [LinearOrderedField α] [FloorRing α]
    (P : Parameters α) (E : RandGen G α) (s : SecretKey) (rng : G) : TRLWE × G :=
  let ra := uniform_poly_list E P.digits P.N P.k rng
  let re := normal_torus_list E P.digits P.alpha1 P.N ra.2
  ({ a := ra.1,
     b := poly_add P.digits P.N (ring_inner_product P.digits P.N ra.1 s.lvl1) re.1 },
   re.2)

/-- Modelled from the spec: the gadget entry `value · Bg ^ (-t)` as a Torus
constant (section 4.4). -/
def gadget_const (w Bg t : Nat) (value : Int) : Nat :=
  ((value * ((2 ^ w / Bg ^ t : Nat) : Int)) % (2 ^ w : Int)).toNat

/-- Add the Torus constant `c` to the constant coefficient of `p`. -/
def poly_add_const (w N : Nat) (p : List Nat) (c : Nat) : List Nat :=
  (List.range N).map fun j => if j = 0 then torus_add w (p.getD 0 0) c else p.getD j 0

/-- Add the Torus constant `c` to the constant coefficient of the component
`block` of a TRLWE row: a mask polynomial for `block < k`, the body otherwise. -/
def TRLWE.add_gadget (w N k : Nat) (row : TRLWE) (block c : Nat) : TRLWE :=
  { a := (List.range k).map fun i =>
      if i = block then poly_add_const w N (row.a.getD i []) c
      else (List.range N).map fun j => (row.a.getD i []).getD j 0
    b := if k ≤ block then poly_add_const w N row.b c
      else (List.range N).map fun j => row.b.getD j 0 }

/-- The row positions of a TRGSW ciphertext: the pairs (block, digit) with
`block ≤ k` and `1 ≤ digit ≤ l`, block-major. -/
def gadget_index (k l : Nat) : List (Nat × Nat) :=
  (List.range (k + 1)).flatMap fun i => (List.range l).map fun t => (i, t + 1)

/-- The rows of a TRGSW encryption of `value`: for each position a fresh
encryption of zero with `value · Bg ^ (-digit)` added to the constant
coefficient of the component `block`. -/
def trgsw_rows {G α : Type} [LinearOrderedField α] [FloorRing α]
    (P : Parameters α) (E : RandGen G α) (s : SecretKey) (value : Int) :
    List (Nat × Nat) → G → List TRLWE × G
  | [], rng => ([], rng)
  | pos :: rest, rng =>
    let z := TRLWE.encrypt_zero P E s rng
    let rs := trgsw_rows P E s value rest z.2
    (TRLWE.add_gadget P.digits P.N P.k z.1 pos.1 (gadget_const P.digits P.Bg pos.2 value)
      :: rs.1, rs.2)

/-- Modelled from the spec: `TRGSW::encrypt` (section 4.4). -/
def TRGSW.encrypt {G α : Type} [LinearOrderedField α] [FloorRing α]
    (P : Parameters α) (E : RandGen G α) (s : SecretKey) (value : Int) (rng : G) : TRGSW × G :=
  let r := trgsw_rows P E s value (gadget_index P.k P.l) rng
  ({ rows := r.1 }, r.2)

/-- The balanced remainder of `r` modulo `Bg`, in `(-Bg/2, Bg/2]`. -/
def balanced_rem (Bg : Nat) (r : Int) : Int :=
  if 2 * (r % (Bg : Int)) ≤ (Bg : Int) then r % (Bg : Int) else r % (Bg : Int) - Bg

/-- The `count` lowest balanced digits of `r` in base `Bg`, least significant
first. -/
def balanced_digits (Bg : Nat) : Nat → Int → List Int
  | 0, _ => []
  | count + 1, r =>
    balanced_rem Bg r :: balanced_digits Bg count ((r - balanced_rem Bg r) / (Bg : Int))

/-- Modelled from the spec: the gadget decomposition of a Torus value
(section 4.4): the value is rounded to the nearest multiple of `2 ^ w / Bg ^ l`
and written with `l` balanced digits in base `Bg`; the digit at list position
`t - 1` has weight `Bg ^ (-t)`. -/
def decompose (w Bg l x : Nat) : List Int :=
  (balanced_digits Bg l
    (((x : Int) + ((2 ^ w / Bg ^ l / 2 : Nat) : Int)) / ((2 ^ w / Bg ^ l : Nat) : Int))).reverse

/-- The component `block` of a TRLWE ciphertext: a mask polynomial for
`block < k`, the body otherwise. -/
def TRLWE.component (k : Nat) (c : TRLWE) (block : Nat) : List Nat :=
  if block < k then c.a.getD block [] else c.b

/-- The integer polynomial of the digits of weight `Bg ^ (-t)` of the
coefficients of a Torus polynomial. -/
def digit_poly (w N Bg l : Nat) (p : List Nat) (t : Nat) : List Int :=
  (List.range N).map fun j => (decompose w Bg l (p.getD j 0)).getD (t - 1) 0

/-- The zero TRLWE ciphertext. -/
def TRLWE.zero (N k : Nat) : TRLWE :=
  { a := List.replicate k (List.replicate N 0), b := List.replicate N 0 }

/-- Componentwise sum of two TRLWE ciphertexts. -/
def TRLWE.add (w N k : Nat) (x y : TRLWE) : TRLWE :=
  { a := (List.range k).map fun i => poly_add w N (x.a.getD i []) (y.a.getD i [])
    b := poly_add w N x.b y.b }

/-- Componentwise difference of two TRLWE ciphertexts. -/
def TRLWE.sub (w N k : Nat) (x y : TRLWE) : TRLWE :=
  { a := (List.range k).map fun i => poly_sub w N (x.a.getD i []) (y.a.getD i [])
    b := poly_sub w N x.b y.b }

/-- Negacyclic product of an integer polynomial with every component of a TRLWE
ciphertext. -/
def TRLWE.scale (w N k : Nat) (d : List Int) (x : TRLWE) : TRLWE :=
  { a := (List.range k).map fun i => poly_mul w N d (x.a.getD i [])
    b := poly_mul w N d x.b }

/-- The gadget inner product: the sum over the row positions of the digit
polynomial of the position times the row. -/
def gadget_sum {α : Type} (P : Parameters α) (c : TRLWE) : List (Nat × Nat) → List TRLWE → TRLWE
  | pos :: ps, row :: rows =>
    TRLWE.add P.digits P.N P.k
      (TRLWE.scale P.digits P.N P.k
        (digit_poly P.digits P.N P.Bg P.l (TRLWE.component P.k c pos.1) pos.2) row)
      (gadget_sum P c ps rows)
  | _, _ => TRLWE.zero P.N P.k

/-- Modelled from the spec: `external_product(trgsw, trlwe)` (section 4.4):
decompose every coefficient of the `k + 1` polynomials of `trlwe` and sum the
TRGSW rows weighted by the digit polynomials. -/
def external_product {α : Type} (P : Parameters α) (g : TRGSW) (c : TRLWE) : TRLWE :=
  gadget_sum P c (gadget_index P.k P.l) g.rows

/-- Modelled from the spec: `cmux(selector, then, else)` (section 4.4):
`external_product(selector, then - else) + else`. -/
def cmux {α : Type} (P : Parameters α) (sel : TRGSW) (thn els : TRLWE) : TRLWE :=
  TRLWE.add P.digits P.N P.k
    (external_product P sel (TRLWE.sub P.digits P.N P.k thn els)) els

/-! ### The noise of an external product

The noise of a ciphertext is its phase minus the encoded message.  For the
result of an external product it is the sum of three contributions, each
computed here from the draws and the digits: the row noises weighted by the
digit polynomials, the input noise, and the rounding error of the gadget
decomposition, the last two multiplied by the TRGSW plaintext. -/

/-- The engine state after one TRLWE encryption started in state `rng`. -/
def TRLWE.encrypt_state {G α : Type} [LinearOrderedField α] [FloorRing α]
    (P : Parameters α) (E : RandGen G α) (rng : G) : G :=
  (normal_torus_list E P.digits P.alpha1 P.N (uniform_poly_list E P.digits P.N P.k rng).2).2

/-- The rounding error of the gadget decomposition of a Torus value: the value
rebuilt from its digits, `Σ digitₜ · Bg ^ (-t)`, minus the value. -/
def decomp_error (w Bg l x : Nat) : Nat :=
  ((∑ t in Finset.range l,
      (decompose w Bg l x).getD t 0 * ((2 ^ w / Bg ^ (t + 1) : Nat) : Int) - (x : Int))
    % (2 ^ w : Int)).toNat

/-- Coefficientwise rounding error of the decomposition of a polynomial. -/
def decomp_error_poly (w N Bg l : Nat) (p : List Nat) : List Nat :=
  (List.range N).map fun j => decomp_error w Bg l (p.getD j 0)

/-- The rounding errors of the decomposition of a TRLWE ciphertext, component by
component. -/
def TRLWE.decomp_error {α : Type} (P : Parameters α) (c : TRLWE) : TRLWE :=
  { a := (List.range P.k).map fun i => decomp_error_poly P.digits P.N P.Bg P.l (c.a.getD i [])
    b := decomp_error_poly P.digits P.N P.Bg P.l c.b }

/-- The noise the TRGSW rows bring into the external product with `c`: the sum
over the row positions of the digit polynomial times the Gaussian noise drawn
for the row. -/
def gadget_noise {G α : Type} [LinearOrderedField α] [FloorRing α]
    (P : Parameters α) (E : RandGen G α) (c : TRLWE) : List (Nat × Nat) → G → List Nat
  | [], _ => List.replicate P.N 0
  | pos :: rest, rng =>
    poly_add P.digits P.N
      (poly_mul P.digits P.N
        (digit_poly P.digits P.N P.Bg P.l (TRLWE.component P.k c pos.1) pos.2)
        (TRLWE.encrypt_noise P E rng))
      (gadget_noise P E c rest (TRLWE.encrypt_state P E rng))

/-- A Torus polynomial multiplied by an integer constant. -/
def poly_scale (w N : Nat) (value : Int) (p : List Nat) : List Nat :=
  (List.range N).map fun j => ((value * (p.getD j 0 : Int)) % (2 ^ w : Int)).toNat

/-- The noise of `external_product (TRGSW.encrypt s value rng) c` for an input
`c` of noise `in_noise`: row noise, plus `value` times the input noise and the
phase of the decomposition error. -/
def external_product_noise {G α : Type} [LinearOrderedField α] [FloorRing α]
    (P : Parameters α) (E : RandGen G α) (s : SecretKey) (value : Int) (c : TRLWE)
    (in_noise : List Nat) (rng : G) : List Nat :=
  poly_add P.digits P.N (gadget_noise P E c (gadget_index P.k P.l) rng)
    (poly_scale P.digits P.N value
      (poly_add P.digits P.N in_noise
        (poly_sub P.digits P.N (TRLWE.decomp_error P c).b
          (ring_inner_product P.digits P.N (TRLWE.decomp_error P c).a s.lvl1))))

/-- The noise of `cmux (TRGSW.encrypt s sel rng) thn els` for inputs of noise
`noise_thn` and `noise_els`: the external product noise on `thn - els`, plus the
noise of `els`. -/
def cmux_noise {G α : Type} [LinearOrderedField α] [FloorRing α]
    (P : Parameters α) (E : RandGen G α) (s : SecretKey) (sel : Bool) (thn els : TRLWE)
    (noise_thn noise_els : List Nat) (rng : G) : List Nat :=
  poly_add P.digits P.N
    (external_product_noise P E s (if sel then 1 else 0)
      (TRLWE.sub P.digits P.N P.k thn els)
      (poly_sub P.digits P.N noise_thn noise_els) rng)
    noise_els

/-! ### Ring reading of the polynomials (used by the proofs) -/

/-- The coefficients of a Torus polynomial read in a ring `R`. -/
def tv {R : Type} [CommRing R] (p : List Nat) : Nat → R := fun j => ((p.getD j 0 : Nat) : R)

/-- The coefficients of an integer polynomial read in a ring `R`. -/
def iv {R : Type} [CommRing R] (d : List Int) : Nat → R := fun j => ((d.getD j 0 : Int) : R)

/-- Negacyclic convolution of two coefficient functions, modulo `X ^ N + 1`. -/
def nc {R : Type} [CommRing R] (N : Nat) (d f : Nat → R) : Nat → R := fun j =>
  ∑ i in Finset.range N, if i ≤ j then d i * f (j - i) else -(d i * f (N + j - i))

/-- Antiperiodic extension of a coefficient function to all integer indices:
`X ^ N = -1`. -/
def wrap {R : Type} [CommRing R] (N : Nat) (f : Nat → R) : Int → R := fun x =>
  (if (x / (N : Int)) % 2 = 0 then 1 else -1) * f (x % (N : Int)).toNat

/-- The key polynomial of index `i` read in a ring `R` (zero past the last key
polynomial). -/
def skey {R : Type} [CommRing R] (s : SecretKey) (i : Nat) : Nat → R :=
  iv (key_poly (s.lvl1.getD i []))

/-- The phase `b - Σ aᵢ * sᵢ` of a TRLWE ciphertext read in a ring `R`. -/
def phaseR {R : Type} [CommRing R] (N k : Nat) (s : SecretKey) (x : TRLWE) : Nat → R := fun j =>
  tv x.b j - ∑ i in Finset.range k, nc N (skey s i) (tv (x.a.getD i [])) j

/-- The phase of the unit gadget of a block: the constant `1` for the body
block, minus the key polynomial for a mask block. -/
def gad {R : Type} [CommRing R] (k : Nat) (s : SecretKey) (block : Nat) : Nat → R := fun j =>
  if k ≤ block then (if j = 0 then 1 else 0) else -skey s block j

/-! ## List access -/

section ListAccess

theorem getD_map_range {β : Type} (N : Nat) (f : Nat → β) (d : β) (j : Nat) (hj : j < N) :
    ((List.range N).map f).getD j d = f j := by
  rw [List.getD_eq_getElem?_getD, List.getElem?_map, List.getElem?_range hj]
  rfl

theorem getD_map_range_ge {β : Type} (N : Nat) (f : Nat → β) (d : β) (j : Nat) (hj : N ≤ j) :
    ((List.range N).map f).getD j d = d := by
  rw [List.getD_eq_getElem?_getD, List.getElem?_eq_none (by simpa using hj)]
  rfl

theorem getD_replicate_zero (N j : Nat) : (List.replicate N (0 : Nat)).getD j 0 = 0 := by
  rw [List.getD_eq_getElem?_getD, List.getElem?_replicate]
  split <;> rfl

theorem sum_map_range {M : Type} [AddCommMonoid M] (n : Nat) (f : Nat → M) :
    ((List.range n).map f).sum = ∑ i in Finset.range n, f i := by
  induction n with
  | zero => simp
  | succ n ih =>
    rw [List.range_succ, List.map_append, List.sum_append, ih, Finset.sum_range_succ]
    simp

theorem sum_map_flatMap_range {M β : Type} [AddCommMonoid M] (n : Nat) (g : Nat → List β)
    (F : β → M) :
    (((List.range n).flatMap g).map F).sum = ∑ i in Finset.range n, ((g i).map F).sum := by
  induction n with
  | zero => simp
  | succ n ih =>
    rw [List.range_succ, List.flatMap_append, List.map_append, List.sum_append, ih,
      Finset.sum_range_succ]
    simp

end ListAccess

/-! ## Lemmas on truncation and on `double_to_torus` -/

section TorusLemmas

variable {α : Type} [LinearOrderedField α] [FloorRing α]

theorem trunc_of_nonneg {y : α} (h : 0 ≤ y) : trunc_to_int y = ⌊y⌋ := by
  simp [trunc_to_int, h]

theorem trunc_of_nonpos {y : α} (h : y ≤ 0) : trunc_to_int y = ⌈y⌉ := by
  unfold trunc_to_int
  split_ifs with h0
  · have : y = 0 := le_antisymm h h0
    subst this; simp
  · rfl

theorem trunc_to_int_neg (y : α) : trunc_to_int (-y) = - trunc_to_int y := by
  rcases le_total 0 y with h | h
  · rw [trunc_of_nonneg h, trunc_of_nonpos (by linarith), Int.ceil_neg]
  · rw [trunc_of_nonpos h, trunc_of_nonneg (by linarith), Int.floor_neg]

theorem trunc_to_int_intCast (i : Int) : trunc_to_int (i : α) = i := by
  rcases le_total 0 (i : α) with h | h
  · rw [trunc_of_nonneg h, Int.floor_intCast]
  · rw [trunc_of_nonpos h, Int.ceil_intCast]

theorem fmod_one_mul_eq (w : Nat) (x : α) :
    trunc_to_int (fmod_one x * 2 ^ w) = trunc_to_int (x * 2 ^ w) - trunc_to_int x * 2 ^ w := by
  have hp : (0 : α) < 2 ^ w := by positivity
  have e : fmod_one x * 2 ^ w = x * 2 ^ w - ((trunc_to_int x * 2 ^ w : Int) : α) := by
    unfold fmod_one; push_cast; ring
  rcases le_total 0 x with hx | hx
  · have h1 : 0 ≤ fmod_one x * 2 ^ w := by
      apply mul_nonneg _ hp.le
      unfold fmod_one; rw [trunc_of_nonneg hx]; linarith [Int.floor_le x]
    rw [trunc_of_nonneg h1, trunc_of_nonneg (mul_nonneg hx hp.le), e, Int.floor_sub_int]
  · have h1 : fmod_one x * 2 ^ w ≤ 0 := by
      apply mul_nonpos_of_nonpos_of_nonneg _ hp.le
      unfold fmod_one; rw [trunc_of_nonpos hx]; linarith [Int.le_ceil x]
    rw [trunc_of_nonpos h1, trunc_of_nonpos (mul_nonpos_of_nonpos_of_nonneg hx hp.le), e,
      Int.ceil_sub_int]

/-- The conversion is the truncation of `x * 2 ^ w`, reduced modulo `2 ^ w`. -/
theorem double_to_torus_eq (w : Nat) (x : α) :
    double_to_torus w x = (trunc_to_int (x * 2 ^ w) % (2 ^ w : Int)).toNat := by
  unfold double_to_torus cast_torus
  rw [fmod_one_mul_eq, Int.sub_emod, Int.mul_emod_left]; simp

end TorusLemmas

/-! ## Claims on `double_to_torus` -/

section TorusClaims

variable {α : Type} [LinearOrderedField α] [FloorRing α]

theorem two_pow_pos_int (w : Nat) : (0 : Int) < 2 ^ w := by positivity

theorem spec_torus_of_frac_eq (w : Nat) (x : α) :
    spec_torus_of_frac w x = (⌊x * 2 ^ w⌋ % (2 ^ w : Int)).toNat := by
  unfold spec_torus_of_frac
  have hp : (0 : α) < 2 ^ w := by positivity
  have e : (x - (⌊x⌋ : Int)) * 2 ^ w = x * 2 ^ w - ((⌊x⌋ * 2 ^ w : Int) : α) := by
    push_cast; ring
  have h0 : 0 ≤ (x - (⌊x⌋ : Int)) * 2 ^ w :=
    mul_nonneg (by linarith [Int.floor_le x]) hp.le
  have h1 : (x - (⌊x⌋ : Int)) * 2 ^ w < 2 ^ w := by
    have : x - (⌊x⌋ : Int) < 1 := by linarith [Int.lt_floor_add_one x]
    nlinarith
  have f0 : 0 ≤ ⌊(x - (⌊x⌋ : Int)) * 2 ^ w⌋ := Int.floor_nonneg.mpr h0
  have f1 : ⌊(x - (⌊x⌋ : Int)) * 2 ^ w⌋ < 2 ^ w := by
    rw [Int.floor_lt]; push_cast; exact h1
  congr 1
  rw [← Int.emod_eq_of_lt f0 f1, e, Int.floor_sub_int, Int.sub_emod, Int.mul_emod_left]
  simp

theorem double_to_torus_lt (w : Nat) (x : α) : double_to_torus w x < 2 ^ w := by
  rw [double_to_torus_eq]
  have h := Int.emod_lt_of_pos (trunc_to_int (x * 2 ^ w)) (two_pow_pos_int w)
  have h0 := Int.emod_nonneg (trunc_to_int (x * 2 ^ w)) (two_pow_pos_int w).ne'
  zify
  rw [Int.toNat_of_nonneg h0]
  exact h

theorem double_to_torus_cast (w : Nat) (x : α) :
    ((double_to_torus w x : Nat) : Int) = trunc_to_int (x * 2 ^ w) % (2 ^ w : Int) := by
  rw [double_to_torus_eq]
  exact Int.toNat_of_nonneg (Int.emod_nonneg _ (two_pow_pos_int w).ne')

theorem double_to_torus_grid (w : Nat) (i : Int) :
    double_to_torus w ((i : α) / 2 ^ w) = (i % (2 ^ w : Int)).toNat := by
  rw [double_to_torus_eq]
  have hp : (2 : α) ^ w ≠ 0 := by positivity
  rw [div_mul_cancel₀ _ hp, trunc_to_int_intCast]

/-- C6, refuted as stated: at `w = 32` and `x = -2^-40` the conversion returns
`0`, not `⌊(x - ⌊x⌋) * 2^32⌋ = 2^32 - 1`, and it differs from the conversion of
`x + 1`. -/
theorem double_to_torus_frac_counterexample :
    double_to_torus 32 (-(1 / 2 ^ 40) : ℚ) ≠ spec_torus_of_frac 32 (-(1 / 2 ^ 40) : ℚ) ∧
    double_to_torus 32 ((-(1 / 2 ^ 40) : ℚ) + ((1 : Int) : ℚ)) ≠
      double_to_torus 32 (-(1 / 2 ^ 40) : ℚ) := by
  have a : double_to_torus 32 (-(1 / 2 ^ 40) : ℚ) = 0 := by
    rw [double_to_torus_eq, trunc_of_nonpos (by norm_num)]
    have : ⌈(-(1 / 2 ^ 40) : ℚ) * 2 ^ 32⌉ = 0 := by
      rw [Int.ceil_eq_iff]; norm_num
    rw [this]; rfl
  have b : spec_torus_of_frac 32 (-(1 / 2 ^ 40) : ℚ) = 4294967295 := by
    rw [spec_torus_of_frac_eq]
    have : ⌊(-(1 / 2 ^ 40) : ℚ) * 2 ^ 32⌋ = -1 := by
      rw [Int.floor_eq_iff]; norm_num
    rw [this]; rfl
  have c : double_to_torus 32 ((-(1 / 2 ^ 40) : ℚ) + ((1 : Int) : ℚ)) = 4294967295 := by
    rw [double_to_torus_eq, trunc_of_nonneg (by norm_num)]
    have : ⌊((-(1 / 2 ^ 40) : ℚ) + ((1 : Int) : ℚ)) * 2 ^ 32⌋ = 4294967295 := by
      rw [Int.floor_eq_iff]; norm_num
    rw [this]; rfl
  rw [a, b, c]; decide

end TorusClaims

section TorusGrid

variable {α : Type} [LinearOrderedField α] [FloorRing α]

/-- C6, amended: for `x ≥ 0`, and for every `x` with `x * 2 ^ w` an integer,
`double_to_torus x = ⌊(x - ⌊x⌋) * 2 ^ w⌋`; for a negative `y` with `y * 2 ^ w`
not an integer the result is one more, modulo `2 ^ w`; and
`double_to_torus (z + k) = double_to_torus z` for an integer `k` as soon as `z`
and `z + k` lie on the same side of zero, or `z * 2 ^ w` is an integer. -/
theorem double_to_torus_frac_amended (w : Nat) (x y z : α) (k : Int)
    (hx : 0 ≤ x ∨ ∃ i : Int, x * 2 ^ w = i)
    (hy : y < 0) (hy2 : ∀ i : Int, y * 2 ^ w ≠ i)
    (hz : (0 ≤ z ∧ 0 ≤ z + k) ∨ (z ≤ 0 ∧ z + k ≤ 0) ∨ ∃ i : Int, z * 2 ^ w = i) :
    double_to_torus w x = spec_torus_of_frac w x ∧
    double_to_torus w y = (spec_torus_of_frac w y + 1) % 2 ^ w ∧
    double_to_torus w (z + k) = double_to_torus w z := by
  have hp : (0 : α) < 2 ^ w := by positivity
  refine ⟨?_, ?_, ?_⟩
  · rw [double_to_torus_eq, spec_torus_of_frac_eq]
    rcases hx with hx | ⟨i, hi⟩
    · rw [trunc_of_nonneg (mul_nonneg hx hp.le)]
    · rw [hi, trunc_to_int_intCast, Int.floor_intCast]
  · have hneg : y * 2 ^ w ≤ 0 := mul_nonpos_of_nonpos_of_nonneg hy.le hp.le
    have hc : ⌈y * 2 ^ w⌉ = ⌊y * 2 ^ w⌋ + 1 := by
      rw [Int.ceil_eq_iff]
      constructor
      · have h1 := Int.floor_le (y * 2 ^ w)
        have h2 : ((⌊y * 2 ^ w⌋ : Int) : α) ≠ y * 2 ^ w := fun h => hy2 _ h.symm
        push_cast
        have := lt_of_le_of_ne h1 h2
        linarith
      · push_cast; exact (Int.lt_floor_add_one _).le
    zify
    rw [double_to_torus_cast, spec_torus_of_frac_eq, trunc_of_nonpos hneg, hc,
      Int.toNat_of_nonneg (Int.emod_nonneg _ (two_pow_pos_int w).ne')]
    simp [Int.add_emod]
  · have e : (z + (k : α)) * 2 ^ w = z * 2 ^ w + ((k * 2 ^ w : Int) : α) := by
      push_cast; ring
    rw [double_to_torus_eq, double_to_torus_eq]
    congr 1
    rcases hz with ⟨h1, h2⟩ | ⟨h1, h2⟩ | ⟨i, hi⟩
    · rw [trunc_of_nonneg (mul_nonneg h2 hp.le), trunc_of_nonneg (mul_nonneg h1 hp.le), e,
        Int.floor_add_int, Int.add_mul_emod_self]
    · rw [trunc_of_nonpos (mul_nonpos_of_nonpos_of_nonneg h2 hp.le),
        trunc_of_nonpos (mul_nonpos_of_nonpos_of_nonneg h1 hp.le), e,
        Int.ceil_add_int, Int.add_mul_emod_self]
    · rw [e, hi, ← Int.cast_add, trunc_to_int_intCast, trunc_to_int_intCast,
        Int.add_mul_emod_self]

/-- Witness of the amended C6 at `w = 32`, `x = 1/3`, `y = -2^-40`, `z = -5/2`
and `k = 2`. -/
theorem double_to_torus_frac_amended_witness :
    double_to_torus 32 (1 / 3 : ℚ) = spec_torus_of_frac 32 (1 / 3 : ℚ) ∧
    double_to_torus 32 (-(1 / 2 ^ 40) : ℚ) =
      (spec_torus_of_frac 32 (-(1 / 2 ^ 40) : ℚ) + 1) % 2 ^ 32 ∧
    double_to_torus 32 ((-(5 / 2) : ℚ) + ((2 : Int) : ℚ)) = double_to_torus 32 (-(5 / 2) : ℚ) :=
  double_to_torus_frac_amended 32 (1 / 3 : ℚ) (-(1 / 2 ^ 40) : ℚ) (-(5 / 2) : ℚ) 2
    (Or.inl (by norm_num)) (by norm_num)
    (by
      intro i h
      have h1 : (-1 : ℚ) < (i : ℚ) := by rw [← h]; norm_num
      have h2 : (i : ℚ) < 0 := by rw [← h]; norm_num
      have h3 : (-1 : Int) < i := by exact_mod_cast h1
      have h4 : i < 0 := by exact_mod_cast h2
      omega)
    (Or.inr (Or.inl ⟨by norm_num, by norm_num⟩))

/-- Under the wrap reading of the cast, on the grid `i / 2 ^ w` the conversion is
`i mod 2 ^ w` for every integer `i`, so it is additive with `w`-bit wraparound;
for a `Torus` of at least three bits, `1/8` encodes to `2 ^ (w - 3)` and `-1/8`
to `2 ^ w - 2 ^ (w - 3)`. -/
theorem double_to_torus_grid_additive (w : Nat) (i j : Int) :
    double_to_torus w ((i : α) / 2 ^ w) = (i % (2 ^ w : Int)).toNat ∧
    (double_to_torus w ((i : α) / 2 ^ w) + double_to_torus w ((j : α) / 2 ^ w)) % 2 ^ w =
      double_to_torus w (((i + j : Int) : α) / 2 ^ w) ∧
    (3 ≤ w → double_to_torus w (1 / 8 : α) = 2 ^ (w - 3) ∧
      double_to_torus w (-(1 / 8) : α) = 2 ^ w - 2 ^ (w - 3)) := by
  refine ⟨double_to_torus_grid w i, ?_, ?_⟩
  · rw [double_to_torus_grid, double_to_torus_grid, double_to_torus_grid]
    zify
    rw [Int.toNat_of_nonneg (Int.emod_nonneg _ (two_pow_pos_int w).ne'),
      Int.toNat_of_nonneg (Int.emod_nonneg _ (two_pow_pos_int w).ne'),
      Int.toNat_of_nonneg (Int.emod_nonneg _ (two_pow_pos_int w).ne')]
    exact (Int.add_emod _ _ _).symm
  intro hw
  have hp : (2 : α) ^ w ≠ 0 := by positivity
  have hsplit : (2 : Int) ^ w = 2 ^ (w - 3) * 8 := by
    rw [show (8 : Int) = 2 ^ 3 by norm_num, ← pow_add, Nat.sub_add_cancel hw]
  have hsplitN : (2 : Nat) ^ w = 2 ^ (w - 3) * 8 := by
    rw [show (8 : Nat) = 2 ^ 3 by norm_num, ← pow_add, Nat.sub_add_cancel hw]
  have hq : (0 : Int) < 2 ^ (w - 3) := by positivity
  have h8 : (1 / 8 : α) = (((2 ^ (w - 3) : Int) : Int) : α) / 2 ^ w := by
    rw [eq_div_iff hp]
    have : ((2 ^ w : Int) : α) = ((2 ^ (w - 3) * 8 : Int) : α) := by rw [hsplit]
    push_cast at this ⊢
    rw [this]; ring
  have h8n : (-(1 / 8) : α) = (((-(2 ^ (w - 3)) : Int) : Int) : α) / 2 ^ w := by
    rw [h8]; push_cast; ring
  refine ⟨?_, ?_⟩
  · rw [h8, double_to_torus_grid, Int.emod_eq_of_lt hq.le (by rw [hsplit]; omega)]
    zify; rw [Int.toNat_of_nonneg hq.le]
  · rw [h8n, double_to_torus_grid]
    have : (-(2 ^ (w - 3)) : Int) % 2 ^ w = 2 ^ w - 2 ^ (w - 3) := by
      rw [← Int.add_emod_self, Int.emod_eq_of_lt (by rw [hsplit]; omega) (by omega)]
      ring
    rw [this]
    have h2 : (2 : Nat) ^ (w - 3) ≤ 2 ^ w := by rw [hsplitN]; omega
    zify [h2]
    rw [Int.toNat_of_nonneg (by rw [hsplit]; omega)]

/-- The grid statement under the wrap reading at `w = 32`, `i = 5`, `j = -7`. -/
theorem double_to_torus_grid_additive_witness :
    double_to_torus 32 (((5 : Int) : ℚ) / 2 ^ 32) = ((5 : Int) % (2 ^ 32 : Int)).toNat ∧
    (double_to_torus 32 (((5 : Int) : ℚ) / 2 ^ 32) +
        double_to_torus 32 (((-7 : Int) : ℚ) / 2 ^ 32)) % 2 ^ 32 =
      double_to_torus 32 (((5 + -7 : Int) : ℚ) / 2 ^ 32) ∧
    double_to_torus 32 (1 / 8 : ℚ) = 2 ^ (32 - 3) ∧
    double_to_torus 32 (-(1 / 8) : ℚ) = 2 ^ 32 - 2 ^ (32 - 3) :=
  ⟨(double_to_torus_grid_additive 32 5 (-7)).1, (double_to_torus_grid_additive 32 5 (-7)).2.1,
    (double_to_torus_grid_additive 32 5 (-7)).2.2 (by decide)⟩

/-- Where C++ defines the cast, the wrap reading returns the same value. -/
theorem cast_torus_defined_some (w : Nat) (y : α) (v : Nat)
    (h : cast_torus_defined w y = some v) : cast_torus w y = v := by
  unfold cast_torus_defined at h
  split_ifs at h with hr
  · unfold cast_torus
    rw [Int.emod_eq_of_lt hr.1 hr.2]
    exact Option.some.inj h

/-- Where the source has defined behaviour, `double_to_torus` is its result. -/
theorem double_to_torus_defined_some (w : Nat) (x : α) (v : Nat)
    (h : double_to_torus_defined w x = some v) : double_to_torus w x = v :=
  cast_torus_defined_some w _ v h

/-- The source has defined behaviour on every nonnegative input. -/
theorem double_to_torus_defined_of_nonneg (w : Nat) (x : α) (hx : 0 ≤ x) :
    double_to_torus_defined w x = some (double_to_torus w x) := by
  have hp : (0 : α) < 2 ^ w := by positivity
  have hf0 : 0 ≤ fmod_one x := by
    unfold fmod_one; rw [trunc_of_nonneg hx]; linarith [Int.floor_le x]
  have hf1 : fmod_one x < 1 := by
    unfold fmod_one; rw [trunc_of_nonneg hx]; linarith [Int.lt_floor_add_one x]
  have hy0 : 0 ≤ fmod_one x * 2 ^ w := mul_nonneg hf0 hp.le
  have ht0 : 0 ≤ trunc_to_int (fmod_one x * 2 ^ w) := by
    rw [trunc_of_nonneg hy0]; exact Int.floor_nonneg.mpr hy0
  have ht1 : trunc_to_int (fmod_one x * 2 ^ w) < (2 ^ w : Int) := by
    rw [trunc_of_nonneg hy0, Int.floor_lt]; push_cast; nlinarith
  unfold double_to_torus_defined double_to_torus cast_torus_defined cast_torus
  rw [if_pos ⟨ht0, ht1⟩, Int.emod_eq_of_lt ht0 ht1]

/-- On the nonnegative grid the source has defined behaviour and returns
`i mod 2 ^ w`, as C7 says. -/
theorem double_to_torus_defined_grid (w : Nat) (i : Int) (hi : 0 ≤ i) :
    double_to_torus_defined w ((i : α) / 2 ^ w) = some (i % (2 ^ w : Int)).toNat := by
  have hp : (0 : α) < 2 ^ w := by positivity
  have hx : (0 : α) ≤ (i : α) / 2 ^ w := div_nonneg (by exact_mod_cast hi) hp.le
  rw [double_to_torus_defined_of_nonneg w _ hx, double_to_torus_grid]

/-- On a negative grid point that is not an integer the scaled value is a
negative integer and the source has undefined behaviour. -/
theorem double_to_torus_defined_grid_neg (w : Nat) (i : Int) (hi : i < 0)
    (hdvd : ¬ (2 ^ w : Int) ∣ i) : double_to_torus_defined w ((i : α) / 2 ^ w) = none := by
  have hp : (2 : α) ^ w ≠ 0 := by positivity
  have hpos : (0 : α) < 2 ^ w := by positivity
  have hx : (i : α) / 2 ^ w ≤ 0 := by
    apply div_nonpos_of_nonpos_of_nonneg _ hpos.le
    exact_mod_cast hi.le
  have ht : trunc_to_int (fmod_one ((i : α) / 2 ^ w) * 2 ^ w)
      = i - trunc_to_int ((i : α) / 2 ^ w) * 2 ^ w := by
    rw [fmod_one_mul_eq, div_mul_cancel₀ _ hp, trunc_to_int_intCast]
  have hneg : trunc_to_int (fmod_one ((i : α) / 2 ^ w) * 2 ^ w) < 0 := by
    have h1 : fmod_one ((i : α) / 2 ^ w) * 2 ^ w ≤ 0 := by
      apply mul_nonpos_of_nonpos_of_nonneg _ hpos.le
      unfold fmod_one; rw [trunc_of_nonpos hx]; linarith [Int.le_ceil ((i : α) / 2 ^ w)]
    have h2 : trunc_to_int (fmod_one ((i : α) / 2 ^ w) * 2 ^ w) ≤ 0 := by
      rw [trunc_of_nonpos h1, Int.ceil_le]; simpa using h1
    rcases eq_or_lt_of_le h2 with h0 | h0
    · exfalso
      apply hdvd
      rw [ht] at h0
      exact ⟨trunc_to_int ((i : α) / 2 ^ w), by linarith⟩
    · exact h0
  unfold double_to_torus_defined cast_torus_defined
  rw [if_neg (by omega)]

/-- C7, evaluation at the failing input `-1/8` with a 32-bit `Torus`: the scaled
value `-2^29` is negative, so the cast of the source has no defined result,
whereas C7 says `2^32 - 2^29`, the value of the wrap reading.  The same holds at
the grid point `-1 / 2^32`; at `1/8` the source is defined and returns `2^29`. -/
theorem double_to_torus_neg_eighth_undefined :
    double_to_torus_defined 32 (-(1 / 8) : ℚ) = none ∧
    double_to_torus 32 (-(1 / 8) : ℚ) = 2 ^ 32 - 2 ^ (32 - 3) ∧
    double_to_torus_defined 32 (((-1 : Int) : ℚ) / 2 ^ 32) = none ∧
    double_to_torus_defined 32 (1 / 8 : ℚ) = some (2 ^ (32 - 3)) := by
  refine ⟨by decide!, ((double_to_torus_grid_additive 32 0 0).2.2 (by decide)).2, ?_, by decide!⟩
  exact double_to_torus_defined_grid_neg 32 (-1) (by decide) (by decide)

end TorusGrid

section TorusRounding

variable {α : Type} [LinearOrderedField α] [FloorRing α]

theorem double_to_torus_of_unit (w : Nat) (x : α) (h0 : 0 ≤ x) (h1 : x < 1) :
    ((double_to_torus w x : Nat) : Int) = ⌊x * 2 ^ w⌋ := by
  have hp : (0 : α) < 2 ^ w := by positivity
  rw [double_to_torus_cast, trunc_of_nonneg (mul_nonneg h0 hp.le)]
  apply Int.emod_eq_of_lt (Int.floor_nonneg.mpr (mul_nonneg h0 hp.le))
  rw [Int.floor_lt]; push_cast; nlinarith

/-- C8, refuted as stated: at `w = 32` the input `3 / 2^34` (scaled value `3/4`,
nearest integer `1`) and the tie `1 / 2^33` (scaled value `1/2`, to be rounded
away from zero to `1`) are both converted to `0`. -/
theorem double_to_torus_rounding_counterexample :
    double_to_torus 32 (3 / 2 ^ 34 : ℚ) ≠
      (round_half_away ((3 / 2 ^ 34 : ℚ) * 2 ^ 32) % (2 ^ 32 : Int)).toNat ∧
    double_to_torus 32 (1 / 2 ^ 33 : ℚ) ≠
      (round_half_away ((1 / 2 ^ 33 : ℚ) * 2 ^ 32) % (2 ^ 32 : Int)).toNat := by
  have a : double_to_torus 32 (3 / 2 ^ 34 : ℚ) = 0 := by
    rw [double_to_torus_eq, trunc_of_nonneg (by norm_num)]
    have : ⌊(3 / 2 ^ 34 : ℚ) * 2 ^ 32⌋ = 0 := by rw [Int.floor_eq_iff]; norm_num
    rw [this]; rfl
  have b : double_to_torus 32 (1 / 2 ^ 33 : ℚ) = 0 := by
    rw [double_to_torus_eq, trunc_of_nonneg (by norm_num)]
    have : ⌊(1 / 2 ^ 33 : ℚ) * 2 ^ 32⌋ = 0 := by rw [Int.floor_eq_iff]; norm_num
    rw [this]; rfl
  have c : round_half_away ((3 / 2 ^ 34 : ℚ) * 2 ^ 32) = 1 := by
    unfold round_half_away
    rw [if_pos (by norm_num), Int.floor_eq_iff]; norm_num
  have d : round_half_away ((1 / 2 ^ 33 : ℚ) * 2 ^ 32) = 1 := by
    unfold round_half_away
    rw [if_pos (by norm_num), Int.floor_eq_iff]; norm_num
  rw [a, b, c, d]; decide

/-- C8, amended: for `x` in `[0, 1)` the conversion rounds `x * 2 ^ w` down (the
largest integer not above it, no reduction needed); for a `Torus` of at least
one bit it is the nearest integer, ties away from zero, exactly when the
fractional part of `x * 2 ^ w` is below one half. -/
theorem double_to_torus_rounds_down (w : Nat) (x : α) (h0 : 0 ≤ x) (h1 : x < 1) :
    ((double_to_torus w x : Nat) : α) ≤ x * 2 ^ w ∧
    x * 2 ^ w < ((double_to_torus w x : Nat) : α) + 1 ∧
    (1 ≤ w →
      (double_to_torus w x = (round_half_away (x * 2 ^ w) % (2 ^ w : Int)).toNat ↔
        Int.fract (x * 2 ^ w) < 1 / 2)) := by
  have hp : (0 : α) < 2 ^ w := by positivity
  have hy0 : 0 ≤ x * 2 ^ w := mul_nonneg h0 hp.le
  have hd := double_to_torus_of_unit w x h0 h1
  have hdα : ((double_to_torus w x : Nat) : α) = ((⌊x * 2 ^ w⌋ : Int) : α) := by
    rw [← hd]; simp
  have hf0 : 0 ≤ ⌊x * 2 ^ w⌋ := Int.floor_nonneg.mpr hy0
  have hf1 : ⌊x * 2 ^ w⌋ < 2 ^ w := by
    rw [Int.floor_lt]; push_cast; nlinarith
  refine ⟨by rw [hdα]; exact Int.floor_le _, by rw [hdα]; exact Int.lt_floor_add_one _, ?_⟩
  intro hw
  have h2w : (2 : Int) ≤ 2 ^ w := by
    calc (2 : Int) = 2 ^ 1 := by norm_num
      _ ≤ 2 ^ w := pow_le_pow_right₀ (by norm_num) hw
  have hr : round_half_away (x * 2 ^ w) = ⌊x * 2 ^ w + 1 / 2⌋ := by
    unfold round_half_away; rw [if_pos hy0]
  rw [hr]
  have key : double_to_torus w x = (⌊x * 2 ^ w + 1 / 2⌋ % (2 ^ w : Int)).toNat ↔
      ⌊x * 2 ^ w⌋ = ⌊x * 2 ^ w + 1 / 2⌋ % (2 ^ w : Int) := by
    rw [← hd]
    constructor
    · intro h
      rw [h, Int.toNat_of_nonneg (Int.emod_nonneg _ (two_pow_pos_int w).ne')]
    · intro h
      have := congrArg Int.toNat h
      simpa using this
  rw [key]
  by_cases hfr : Int.fract (x * 2 ^ w) < 1 / 2
  · have e : ⌊x * 2 ^ w + 1 / 2⌋ = ⌊x * 2 ^ w⌋ := by
      rw [Int.floor_eq_iff]
      have := Int.self_sub_floor (x * 2 ^ w)
      constructor
      · linarith [Int.floor_le (x * 2 ^ w)]
      · linarith
    simp only [hfr, iff_true]
    rw [e, Int.emod_eq_of_lt hf0 hf1]
  · have e : ⌊x * 2 ^ w + 1 / 2⌋ = ⌊x * 2 ^ w⌋ + 1 := by
      rw [Int.floor_eq_iff]
      have := Int.self_sub_floor (x * 2 ^ w)
      push_neg at hfr
      push_cast
      constructor
      · linarith
      · linarith [Int.lt_floor_add_one (x * 2 ^ w)]
    simp only [hfr, iff_false]
    rw [e]
    intro h
    by_cases hlt : ⌊x * 2 ^ w⌋ + 1 < 2 ^ w
    · rw [Int.emod_eq_of_lt (by omega) hlt] at h
      omega
    · have : ⌊x * 2 ^ w⌋ + 1 = 2 ^ w := by omega
      rw [this, Int.emod_self] at h
      omega

/-- Witness of the amended C8 at `w = 32`, `x = 3 / 2^34`. -/
theorem double_to_torus_rounds_down_witness :
    ((double_to_torus 32 (3 / 2 ^ 34 : ℚ) : Nat) : ℚ) ≤ (3 / 2 ^ 34 : ℚ) * 2 ^ 32 ∧
    (3 / 2 ^ 34 : ℚ) * 2 ^ 32 < ((double_to_torus 32 (3 / 2 ^ 34 : ℚ) : Nat) : ℚ) + 1 ∧
    (double_to_torus 32 (3 / 2 ^ 34 : ℚ) =
        (round_half_away ((3 / 2 ^ 34 : ℚ) * 2 ^ 32) % (2 ^ 32 : Int)).toNat ↔
      Int.fract ((3 / 2 ^ 34 : ℚ) * 2 ^ 32) < 1 / 2) :=
  ⟨(double_to_torus_rounds_down 32 (3 / 2 ^ 34 : ℚ) (by norm_num) (by norm_num)).1,
    (double_to_torus_rounds_down 32 (3 / 2 ^ 34 : ℚ) (by norm_num) (by norm_num)).2.1,
    (double_to_torus_rounds_down 32 (3 / 2 ^ 34 : ℚ) (by norm_num) (by norm_num)).2.2
      (by decide)⟩

theorem double_to_torus_neg_add (w : Nat) (x : α) :
    (double_to_torus w (-x) + double_to_torus w x) % 2 ^ w = 0 := by
  zify
  rw [double_to_torus_cast, double_to_torus_cast, neg_mul, trunc_to_int_neg, ← Int.add_emod]
  simp

/-- C9: `double_to_torus (-x) + double_to_torus x` is `0` modulo `2 ^ w`; hence
the noise `normal_torus_gen` returns for a draw `-z` is the `w`-bit negation of
the noise it returns for the draw `z`. -/
theorem double_to_torus_neg_symm {G₁ G₂ : Type} (w : Nat) (x : α)
    (E₁ : RandGen G₁ α) (E₂ : RandGen G₂ α) (a₁ a₂ : α) (r₁ : G₁) (r₂ : G₂)
    (h : (E₁.normal a₁ r₁).1 = -(E₂.normal a₂ r₂).1) :
    (double_to_torus w (-x) + double_to_torus w x) % 2 ^ w = 0 ∧
    (normal_torus_gen E₁ w a₁ r₁).1 = (2 ^ w - (normal_torus_gen E₂ w a₂ r₂).1) % 2 ^ w := by
  refine ⟨double_to_torus_neg_add w x, ?_⟩
  unfold normal_torus_gen
  simp only [h]
  have h0 := double_to_torus_neg_add w (E₂.normal a₂ r₂).1
  have h1 := double_to_torus_lt w (-(E₂.normal a₂ r₂).1)
  have h2 := double_to_torus_lt w (E₂.normal a₂ r₂).1
  generalize double_to_torus w (-(E₂.normal a₂ r₂).1) = p at *
  generalize double_to_torus w (E₂.normal a₂ r₂).1 = q at *
  generalize (2 : Nat) ^ w = m at *
  rcases Nat.eq_zero_or_pos q with hq | hq
  · subst hq
    rw [Nat.add_zero, Nat.mod_eq_of_lt h1] at h0
    subst h0; simp
  · rw [Nat.mod_eq_of_lt (by omega)]
    have hd : m ∣ p + q := Nat.dvd_of_mod_eq_zero h0
    obtain ⟨c, hc⟩ := hd
    have hc1 : c = 1 := by
      rcases c with _ | _ | c
      · omega
      · rfl
      · exfalso
        have : m * (c + 1 + 1) = m * c + m + m := by ring
        omega
    subst hc1; omega

/-- Witness of C9 with the demonstration engine: the states `1` and `5` give the
opposite draws `-1/64` and `1/64` at deviation `1/2`. -/
theorem double_to_torus_neg_symm_witness :
    (double_to_torus 32 (-(1 / 3 : ℚ)) + double_to_torus 32 (1 / 3 : ℚ)) % 2 ^ 32 = 0 ∧
    (normal_torus_gen demoGen 32 (1 / 2 : ℚ) 1).1 =
      (2 ^ 32 - (normal_torus_gen demoGen 32 (1 / 2 : ℚ) 5).1) % 2 ^ 32 :=
  double_to_torus_neg_symm 32 (1 / 3 : ℚ) demoGen demoGen (1 / 2) (1 / 2) 1 5
    (by simp [demoGen]; norm_num)

theorem double_to_torus_small (w : Nat) (z : α) (hz : |z| < 1 / 8) :
    double_to_torus w z < 2 ^ (w - 3) ∨ 2 ^ w - 2 ^ (w - 3) < double_to_torus w z := by
  have hp : (0 : α) < 2 ^ w := by positivity
  have hle : (2 : α) ^ w ≤ 2 ^ (w - 3) * 8 := by
    rw [show (8 : α) = 2 ^ 3 by norm_num, ← pow_add]
    exact pow_le_pow_right₀ (by norm_num) (by omega)
  have hPle : (2 : Int) ^ (w - 3) ≤ 2 ^ w := pow_le_pow_right₀ (by norm_num) (by omega)
  have hPleN : (2 : Nat) ^ (w - 3) ≤ 2 ^ w := Nat.pow_le_pow_right (by norm_num) (by omega)
  obtain ⟨hz1, hz2⟩ := abs_lt.mp hz
  have hd := double_to_torus_cast w z
  rcases le_total 0 z with h | h
  · left
    have hy : 0 ≤ z * 2 ^ w := mul_nonneg h hp.le
    rw [trunc_of_nonneg hy] at hd
    have hf : ⌊z * 2 ^ w⌋ < 2 ^ (w - 3) := by
      rw [Int.floor_lt]; push_cast; nlinarith
    rw [Int.emod_eq_of_lt (Int.floor_nonneg.mpr hy) (lt_of_lt_of_le hf hPle)] at hd
    zify; rw [hd]; exact hf
  · have hy : z * 2 ^ w ≤ 0 := mul_nonpos_of_nonpos_of_nonneg h hp.le
    rw [trunc_of_nonpos hy] at hd
    have hc : -(2 ^ (w - 3) : Int) < ⌈z * 2 ^ w⌉ := by
      rw [Int.lt_ceil]; push_cast; nlinarith
    have hc0 : ⌈z * 2 ^ w⌉ ≤ 0 := by
      rw [Int.ceil_le]; simpa using hy
    rcases eq_or_lt_of_le hc0 with h0 | h0
    · left
      rw [h0] at hd
      simp at hd
      rw [hd]; positivity
    · right
      rw [← Int.add_emod_self, Int.emod_eq_of_lt (by omega) (by omega)] at hd
      zify [hPleN]; rw [hd]; omega

/-- C10: a real `z` with `|z| < 1/8` is converted to a `Torus` value of signed
magnitude below `2 ^ (w - 3)`: the unsigned result is below `2 ^ (w - 3)` or
above `2 ^ w - 2 ^ (w - 3)`.  So is the output of `normal_torus_gen` whenever the
normal draw it converts is below `1/8` in magnitude. -/
theorem double_to_torus_below_threshold {G : Type} (w : Nat) (z : α)
    (E : RandGen G α) (alpha : α) (rng : G)
    (hz : |z| < 1 / 8) (hdraw : |(E.normal alpha rng).1| < 1 / 8) :
    (double_to_torus w z < 2 ^ (w - 3) ∨ 2 ^ w - 2 ^ (w - 3) < double_to_torus w z) ∧
    ((normal_torus_gen E w alpha rng).1 < 2 ^ (w - 3) ∨
      2 ^ w - 2 ^ (w - 3) < (normal_torus_gen E w alpha rng).1) :=
  ⟨double_to_torus_small w z hz, double_to_torus_small w _ hdraw⟩

/-- Witness of C10 at `w = 32`, `z = -1/9`, and the demonstration engine in
state `1` with deviation `1/2` (draw `-1/64`). -/
theorem double_to_torus_below_threshold_witness :
    (double_to_torus 32 (-(1 / 9) : ℚ) < 2 ^ (32 - 3) ∨
      2 ^ 32 - 2 ^ (32 - 3) < double_to_torus 32 (-(1 / 9) : ℚ)) ∧
    ((normal_torus_gen demoGen 32 (1 / 2 : ℚ) 1).1 < 2 ^ (32 - 3) ∨
      2 ^ 32 - 2 ^ (32 - 3) < (normal_torus_gen demoGen 32 (1 / 2 : ℚ) 1).1) :=
  double_to_torus_below_threshold 32 (-(1 / 9) : ℚ) demoGen (1 / 2) 1
    (by rw [abs_lt]; constructor <;> norm_num)
    (by simp [demoGen]; rw [abs_lt]; constructor <;> norm_num)

end TorusRounding

/-! ## TLWE round trip -/

section TLWE

variable {α : Type} [LinearOrderedField α] [FloorRing α]

theorem torus_sub_add_cancel (w d x : Nat) (hd : d < 2 ^ w) :
    torus_sub w (torus_add w d x) d = x % 2 ^ w := by
  unfold torus_sub torus_add
  rw [Nat.mod_eq_of_lt hd, Nat.mod_add_mod]
  have : d + x + (2 ^ w - d) = x + 2 ^ w := by omega
  rw [this, Nat.add_mod_right]

theorem inner_product_lt (w : Nat) (a : List Nat) (s : List Bool) :
    inner_product w a s < 2 ^ w := by
  induction a generalizing s with
  | nil => simp [inner_product]
  | cons x xs ih =>
    cases s with
    | nil => simp [inner_product]
    | cons b bs =>
      simp only [inner_product, torus_add]
      exact Nat.mod_lt _ (by positivity)

theorem abs_nearer (x Q : Int) (hQ : 0 < Q) : |x - Q| < |x + Q| ↔ 0 < x := by
  rw [← sq_lt_sq]
  constructor <;> intro h <;> nlinarith

theorem two_pow_split {w : Nat} (hw : 3 ≤ w) : (2 : Nat) ^ w = 2 ^ (w - 3) * 8 := by
  rw [show (8 : Nat) = 2 ^ 3 by norm_num, ← pow_add, Nat.sub_add_cancel hw]

/-- A phase `μ(bit) + e` whose noise `e` has signed magnitude below `1/8` of the
range is thresholded back to `bit`. -/
theorem nearer_of_noise (w : Nat) (hw : 3 ≤ w) (bit : Bool) (e : Nat) (he : e < 2 ^ w)
    (hsmall : (torus_signed w e).natAbs < 2 ^ w / 8) :
    nearer_plus_eighth w ((mu w bit + e) % 2 ^ w) = bit := by
  have hsplit := two_pow_split hw
  have hQ : 2 ^ w / 8 = 2 ^ (w - 3) := by rw [hsplit]; simp
  have hQpos : 0 < 2 ^ (w - 3) := by positivity
  rw [hQ] at hsmall
  unfold nearer_plus_eighth mu
  rw [hQ]
  have hM : ((2 : Int) ^ w) = ((2 ^ (w - 3) : Nat) : Int) * 8 := by
    have := congrArg (fun t : Nat => (t : Int)) hsplit
    simpa using this
  generalize 2 ^ (w - 3) = Q at *
  have hQi : (0 : Int) < (Q : Int) := by exact_mod_cast hQpos
  unfold torus_signed at hsmall ⊢
  rw [hM] at hsmall ⊢
  rw [hsplit] at he hsmall ⊢
  have hcase : e < Q ∨ 7 * Q < e := by
    split_ifs at hsmall <;> omega
  cases bit
  · simp only [Bool.false_eq_true, if_false]
    rw [decide_eq_false_iff_not, abs_nearer _ _ hQi]
    rcases hcase with h | h
    · have h2 : (Q * 8 - Q + e) % (Q * 8) = 7 * Q + e := by
        rw [Nat.mod_eq_of_lt (by omega)]; omega
      rw [h2]; split_ifs <;> omega
    · have h2 : (Q * 8 - Q + e) % (Q * 8) = e - Q := by
        rw [Nat.mod_eq_sub_mod (by omega), Nat.mod_eq_of_lt (by omega)]; omega
      rw [h2]; split_ifs <;> omega
  · simp only [if_true]
    rw [decide_eq_true_eq, abs_nearer _ _ hQi]
    rcases hcase with h | h
    · have h2 : (Q + e) % (Q * 8) = Q + e := Nat.mod_eq_of_lt (by omega)
      rw [h2]; split_ifs <;> omega
    · have h2 : (Q + e) % (Q * 8) = e - 7 * Q := by
        rw [Nat.mod_eq_sub_mod (by omega), Nat.mod_eq_of_lt (by omega)]; omega
      rw [h2]; split_ifs <;> omega

theorem normal_torus_gen_lt {G : Type} (E : RandGen G α) (w : Nat) (alpha : α) (rng : G) :
    (normal_torus_gen E w alpha rng).1 < 2 ^ w := by
  unfold normal_torus_gen
  exact double_to_torus_lt w _

/-- A Gaussian draw of magnitude below `1/8` gives, after conversion, a Torus
noise of signed magnitude below `1/8` of the range: the real reading of the
noise bound implies the Torus reading used by the round trips. -/
theorem noise_small_of_draw {G : Type} (E : RandGen G α) (w : Nat) (hw : 3 ≤ w) (alpha : α)
    (rng : G) (hdraw : |(E.normal alpha rng).1| < 1 / 8) :
    (torus_signed w (normal_torus_gen E w alpha rng).1).natAbs < 2 ^ w / 8 := by
  have hsplit := two_pow_split hw
  have hQ : 2 ^ w / 8 = 2 ^ (w - 3) := by rw [hsplit]; simp
  have hQpos : 0 < 2 ^ (w - 3) := by positivity
  have hlt := normal_torus_gen_lt E w alpha rng
  have h := double_to_torus_small w (E.normal alpha rng).1 hdraw
  have he : (normal_torus_gen E w alpha rng).1 = double_to_torus w (E.normal alpha rng).1 := rfl
  rw [← he] at h
  have hM : ((2 : Int) ^ w) = ((2 ^ (w - 3) : Nat) : Int) * 8 := by
    have := congrArg (fun t : Nat => (t : Int)) hsplit
    simpa using this
  rw [hQ]
  unfold torus_signed
  rw [hM]
  rw [hsplit] at h hlt ⊢
  generalize (normal_torus_gen E w alpha rng).1 = e at *
  generalize 2 ^ (w - 3) = Q at *
  split_ifs <;> omega

/-- C1: TLWE round trip.  For every key, bit and engine state, when the Gaussian
noise drawn inside `encrypt` has signed magnitude below `1/8` of the Torus
range, `decrypt_bool (encrypt s m rng) = m`. -/
theorem tlwe_round_trip {G : Type} (P : Parameters α) (E : RandGen G α) (s : SecretKey)
    (m : Bool) (rng : G) (hw : 3 ≤ P.digits)
    (hnoise : (torus_signed P.digits (TLWElvl0.encrypt_noise P E rng)).natAbs
      < 2 ^ P.digits / 8) :
    TLWElvl0.decrypt_bool P (TLWElvl0.encrypt P E s m rng).1 s = m := by
  unfold TLWElvl0.decrypt_bool TLWElvl0.encrypt
  simp only
  have hlt := inner_product_lt P.digits (uniform_torus_list E P.digits P.n rng).1 s.lvl0
  have e1 : ∀ d x y : Nat, torus_add P.digits (torus_add P.digits d x) y
      = torus_add P.digits d (x + y) := by
    intro d x y
    unfold torus_add
    rw [Nat.mod_add_mod, Nat.add_assoc]
  rw [e1, torus_sub_add_cancel _ _ _ hlt]
  exact nearer_of_noise P.digits hw m _ (normal_torus_gen_lt E _ _ _) hnoise

end TLWE

/-! ## TRLWE round trip -/

section TRLWE

variable {α : Type} [LinearOrderedField α] [FloorRing α]

theorem torus_add_lt (w x y : Nat) : torus_add w x y < 2 ^ w :=
  Nat.mod_lt _ (by positivity)

theorem ring_inner_product_lt (w N : Nat) (a : List (List Nat)) (s : List (List Bool))
    (j : Nat) : (ring_inner_product w N a s).getD j 0 < 2 ^ w := by
  have hpos : 0 < 2 ^ w := by positivity
  have hz : (List.replicate N (0 : Nat)).getD j 0 < 2 ^ w := by
    rw [getD_replicate_zero]; exact hpos
  have hadd : ∀ p q : List Nat, (poly_add w N p q).getD j 0 < 2 ^ w := by
    intro p q
    unfold poly_add
    rcases Nat.lt_or_ge j N with hj | hj
    · rw [getD_map_range _ _ _ _ hj]; exact torus_add_lt _ _ _
    · rw [getD_map_range_ge _ _ _ _ hj]; exact hpos
  cases a with
  | nil => simp [ring_inner_product, hz]
  | cons x xs =>
    cases s with
    | nil => simp [ring_inner_product, hz]
    | cons t ts =>
      simp only [ring_inner_product]
      exact hadd _ _

theorem normal_torus_list_lt {G : Type} (E : RandGen G α) (w : Nat) (alpha : α)
    (count : Nat) (rng : G) (j : Nat) :
    (normal_torus_list E w alpha count rng).1.getD j 0 < 2 ^ w := by
  induction count generalizing rng j with
  | zero => simp [normal_torus_list]
  | succ c ih =>
    simp only [normal_torus_list]
    cases j with
    | zero => simpa using normal_torus_gen_lt E w alpha rng
    | succ j => simpa using ih _ j

/-- C2: TRLWE ring round trip.  For every key, binary polynomial and engine
state, when each per-coefficient noise drawn inside `encrypt` has signed
magnitude below `1/8` of the Torus range, `decrypt_poly_bool (encrypt s m rng)`
has `N` coefficients and agrees with `m` in every one of them. -/
theorem trlwe_round_trip {G : Type} (P : Parameters α) (E : RandGen G α) (s : SecretKey)
    (m : List Bool) (rng : G) (hw : 3 ≤ P.digits)
    (hnoise : ∀ j, j < P.N →
      (torus_signed P.digits ((TRLWE.encrypt_noise P E rng).getD j 0)).natAbs
        < 2 ^ P.digits / 8) :
    (TRLWE.decrypt_poly_bool P (TRLWE.encrypt P E s m rng).1 s).length = P.N ∧
    ∀ j, j < P.N →
      (TRLWE.decrypt_poly_bool P (TRLWE.encrypt P E s m rng).1 s).getD j false
        = m.getD j false := by
  refine ⟨by simp [TRLWE.decrypt_poly_bool], ?_⟩
  intro j hj
  unfold TRLWE.decrypt_poly_bool TRLWE.encrypt
  simp only
  rw [getD_map_range _ _ _ _ hj]
  unfold poly_sub poly_add mu_poly
  rw [getD_map_range _ _ _ _ hj, getD_map_range _ _ _ _ hj, getD_map_range _ _ _ _ hj,
    getD_map_range _ _ _ _ hj]
  have hlt := ring_inner_product_lt P.digits P.N (uniform_poly_list E P.digits P.N P.k rng).1
    s.lvl1 j
  have e1 : ∀ d x y : Nat, torus_add P.digits (torus_add P.digits d x) y
      = torus_add P.digits d (x + y) := by
    intro d x y
    unfold torus_add
    rw [Nat.mod_add_mod, Nat.add_assoc]
  rw [e1, torus_sub_add_cancel _ _ _ hlt]
  exact nearer_of_noise P.digits hw _ _ (normal_torus_list_lt E _ _ _ _ _) (hnoise j hj)

end TRLWE

/-! ## Negacyclic convolution in a commutative ring

The Torus polynomials are read in a commutative ring `R` in which `2 ^ w = 0`
(in the end `ZMod (2 ^ w)`), where the modular reductions disappear. -/

section Negacyclic

variable {R : Type} [CommRing R]

theorem nc_congr_right (N : Nat) (d f g : Nat → R) (h : ∀ i, i < N → f i = g i)
    (j : Nat) (hj : j < N) : nc N d f j = nc N d g j := by
  unfold nc
  apply Finset.sum_congr rfl
  intro i hi
  rw [Finset.mem_range] at hi
  split_ifs with hij
  · rw [h (j - i) (by omega)]
  · rw [h (N + j - i) (by omega)]

theorem nc_congr_left (N : Nat) (d e f : Nat → R) (h : ∀ i, i < N → d i = e i)
    (j : Nat) : nc N d f j = nc N e f j := by
  unfold nc
  apply Finset.sum_congr rfl
  intro i hi
  rw [Finset.mem_range] at hi
  rw [h i hi]

theorem nc_congr_right_all (N : Nat) (d f g : Nat → R) (h : ∀ i, f i = g i) (j : Nat) :
    nc N d f j = nc N d g j := by
  have : f = g := funext h
  rw [this]

theorem nc_add_right (N : Nat) (d f g : Nat → R) (j : Nat) :
    nc N d (fun i => f i + g i) j = nc N d f j + nc N d g j := by
  unfold nc
  rw [← Finset.sum_add_distrib]
  apply Finset.sum_congr rfl
  intro i _
  split_ifs <;> ring

theorem nc_sub_right (N : Nat) (d f g : Nat → R) (j : Nat) :
    nc N d (fun i => f i - g i) j = nc N d f j - nc N d g j := by
  unfold nc
  rw [← Finset.sum_sub_distrib]
  apply Finset.sum_congr rfl
  intro i _
  split_ifs <;> ring

theorem nc_smul_right (N : Nat) (d f : Nat → R) (c : R) (j : Nat) :
    nc N d (fun i => c * f i) j = c * nc N d f j := by
  unfold nc
  rw [Finset.mul_sum]
  apply Finset.sum_congr rfl
  intro i _
  split_ifs <;> ring

theorem nc_zero_right (N : Nat) (d : Nat → R) (j : Nat) :
    nc N d (fun _ => 0) j = 0 := by
  unfold nc
  apply Finset.sum_eq_zero
  intro i _
  split_ifs <;> simp

/-- The negacyclic convolution is commutative. -/
theorem nc_comm (N : Nat) (d f : Nat → R) (j : Nat) (hj : j < N) :
    nc N d f j = nc N f d j := by
  unfold nc
  apply Finset.sum_bij' (fun i _ => if i ≤ j then j - i else N + j - i)
    (fun i _ => if i ≤ j then j - i else N + j - i)
  · intro i hi
    rw [Finset.mem_range] at hi ⊢
    split_ifs <;> omega
  · intro i hi
    rw [Finset.mem_range] at hi ⊢
    split_ifs <;> omega
  · intro i hi
    rw [Finset.mem_range] at hi
    by_cases h : i ≤ j
    · simp only [h, if_true]
      rw [if_pos (by omega)]; omega
    · simp only [h, if_false]
      rw [if_neg (by omega)]; omega
  · intro i hi
    rw [Finset.mem_range] at hi
    by_cases h : i ≤ j
    · simp only [h, if_true]
      rw [if_pos (by omega)]; omega
    · simp only [h, if_false]
      rw [if_neg (by omega)]; omega
  · intro i hi
    rw [Finset.mem_range] at hi
    by_cases h : i ≤ j
    · simp only [h, if_true]
      rw [if_pos (by omega), mul_comm]
      congr 2; omega
    · simp only [h, if_false]
      rw [if_neg (by omega), mul_comm]
      congr 3; omega

theorem nc_add_left (N : Nat) (d e f : Nat → R) (j : Nat) :
    nc N (fun i => d i + e i) f j = nc N d f j + nc N e f j := by
  unfold nc
  rw [← Finset.sum_add_distrib]
  apply Finset.sum_congr rfl
  intro i _
  split_ifs <;> ring

theorem nc_smul_left (N : Nat) (d f : Nat → R) (c : R) (j : Nat) :
    nc N (fun i => c * d i) f j = c * nc N d f j := by
  unfold nc
  rw [Finset.mul_sum]
  apply Finset.sum_congr rfl
  intro i _
  split_ifs <;> ring

theorem nc_zero_left (N : Nat) (f : Nat → R) (j : Nat) :
    nc N (fun _ => 0) f j = 0 := by
  unfold nc
  apply Finset.sum_eq_zero
  intro i _
  split_ifs <;> simp

/-- Convolution with the constant polynomial `1` is the identity. -/
theorem nc_delta_right (N : Nat) (d : Nat → R) (j : Nat) (hj : j < N) :
    nc N d (fun i => if i = 0 then 1 else 0) j = d j := by
  unfold nc
  rw [Finset.sum_eq_single j]
  · simp
  · intro i hi hne
    rw [Finset.mem_range] at hi
    by_cases h1 : i ≤ j
    · rw [if_pos h1]
      have h2 : ¬ (j - i = 0) := by omega
      simp only [h2, if_false, mul_zero]
    · rw [if_neg h1]
      have h2 : ¬ (N + j - i = 0) := by omega
      simp only [h2, if_false, mul_zero, neg_zero]
  · intro h
    rw [Finset.mem_range] at h
    omega

end Negacyclic

section Antiperiodic

variable {R : Type} [CommRing R]

theorem sign_mul_sign (a b : Int) :
    ((if (a + b) % 2 = 0 then 1 else -1 : R)) =
      (if a % 2 = 0 then 1 else -1) * (if b % 2 = 0 then 1 else -1) := by
  have ha := Int.emod_two_eq a
  have hb := Int.emod_two_eq b
  rcases ha with ha | ha <;> rcases hb with hb | hb
  · have hab : (a + b) % 2 = 0 := by omega
    simp [ha, hb, hab]
  · have hab : (a + b) % 2 = 1 := by omega
    simp [ha, hb, hab]
  · have hab : (a + b) % 2 = 1 := by omega
    simp [ha, hb, hab]
  · have hab : (a + b) % 2 = 0 := by omega
    simp [ha, hb, hab]

/-- Shifting the index by `t` periods multiplies the extension by `(-1) ^ t`. -/
theorem wrap_add_period (N : Nat) (hN : 0 < N) (f : Nat → R) (x t : Int) :
    wrap N f (x + (N : Int) * t) = (if t % 2 = 0 then 1 else -1) * wrap N f x := by
  unfold wrap
  have hN0 : (N : Int) ≠ 0 := by omega
  rw [Int.add_mul_ediv_left _ _ hN0, Int.add_mul_emod_self_left, sign_mul_sign]
  ring

theorem wrap_of_lt (N : Nat) (f : Nat → R) (j : Nat) (hj : j < N) :
    wrap N f (j : Int) = f j := by
  unfold wrap
  have h1 : (j : Int) / (N : Int) = 0 := Int.ediv_eq_zero_of_lt (by omega) (by omega)
  have h2 : (j : Int) % (N : Int) = j := Int.emod_eq_of_lt (by omega) (by omega)
  rw [h1, h2]
  simp

/-- The convolution as a plain sum over the antiperiodic extension. -/
theorem nc_eq_sum_wrap (N : Nat) (d f : Nat → R) (j : Nat) (hj : j < N) :
    nc N d f j = ∑ i in Finset.range N, d i * wrap N f ((j : Int) - (i : Int)) := by
  unfold nc
  apply Finset.sum_congr rfl
  intro i hi
  rw [Finset.mem_range] at hi
  by_cases h : i ≤ j
  · rw [if_pos h]
    have : (j : Int) - (i : Int) = ((j - i : Nat) : Int) := by omega
    rw [this, wrap_of_lt N f (j - i) (by omega)]
  · rw [if_neg h]
    have : (j : Int) - (i : Int) = ((N + j - i : Nat) : Int) + (N : Int) * (-1) := by omega
    rw [this, wrap_add_period N (by omega) f _ (-1), wrap_of_lt N f (N + j - i) (by omega)]
    simp

/-- The extension of a convolution is the convolution of the extension. -/
theorem wrap_nc (N : Nat) (hN : 0 < N) (d f : Nat → R) (x : Int) :
    wrap N (nc N d f) x = ∑ i in Finset.range N, d i * wrap N f (x - (i : Int)) := by
  have hN0 : (N : Int) ≠ 0 := by omega
  have hr0 : 0 ≤ x % (N : Int) := Int.emod_nonneg _ hN0
  have hr1 : x % (N : Int) < N := Int.emod_lt_of_pos _ (by omega)
  have hx : x = ((x % (N : Int)).toNat : Int) + (N : Int) * (x / (N : Int)) := by
    rw [Int.toNat_of_nonneg hr0]
    exact (Int.emod_add_ediv x N).symm
  have hlt : (x % (N : Int)).toNat < N := by omega
  conv_lhs => rw [hx]
  rw [wrap_add_period N hN, wrap_of_lt N _ _ hlt, nc_eq_sum_wrap N d f _ hlt, Finset.mul_sum]
  apply Finset.sum_congr rfl
  intro i _
  have e : x - (i : Int)
      = (((x % (N : Int)).toNat : Int) - (i : Int)) + (N : Int) * (x / (N : Int)) := by
    omega
  conv_rhs => rw [e, wrap_add_period N hN]
  ring

/-- Two convolutions commute: this is associativity together with commutativity
of the product modulo `X ^ N + 1`. -/
theorem nc_nc_comm (N : Nat) (d s f : Nat → R) (j : Nat) (hj : j < N) :
    nc N d (nc N s f) j = nc N s (nc N d f) j := by
  have hN : 0 < N := by omega
  rw [nc_eq_sum_wrap N d _ j hj, nc_eq_sum_wrap N s _ j hj]
  simp only [wrap_nc N hN, Finset.mul_sum]
  rw [Finset.sum_comm]
  apply Finset.sum_congr rfl
  intro a _
  apply Finset.sum_congr rfl
  intro b _
  have : (j : Int) - (b : Int) - (a : Int) = (j : Int) - (a : Int) - (b : Int) := by ring
  rw [this]
  ring

end Antiperiodic

/-! ## The model operations read in the ring -/

section RingReading

variable {R : Type} [CommRing R]

theorem cast_nat_mod (w : Nat) (hq : (2 : R) ^ w = 0) (x : Nat) :
    ((x % 2 ^ w : Nat) : R) = (x : R) := by
  conv_rhs => rw [← Nat.mod_add_div x (2 ^ w)]
  push_cast
  rw [hq]; ring

theorem cast_int_mod (w : Nat) (hq : (2 : R) ^ w = 0) (x : Int) :
    (((x % (2 ^ w : Int)).toNat : Nat) : R) = (x : R) := by
  have h0 : 0 ≤ x % (2 ^ w : Int) := Int.emod_nonneg _ (by positivity)
  have h1 : (((x % (2 ^ w : Int)).toNat : Nat) : R) = (((x % (2 ^ w : Int) : Int)) : R) := by
    rw [← Int.cast_natCast, Int.toNat_of_nonneg h0]
  rw [h1]
  conv_rhs => rw [← Int.emod_add_ediv x (2 ^ w)]
  push_cast
  rw [hq]; ring

theorem cast_torus_add (w : Nat) (hq : (2 : R) ^ w = 0) (x y : Nat) :
    ((torus_add w x y : Nat) : R) = (x : R) + (y : R) := by
  unfold torus_add
  rw [cast_nat_mod w hq]; push_cast; ring

theorem cast_torus_sub (w : Nat) (hq : (2 : R) ^ w = 0) (x y : Nat) :
    ((torus_sub w x y : Nat) : R) = (x : R) - (y : R) := by
  unfold torus_sub
  have hle : y % 2 ^ w ≤ 2 ^ w := (Nat.mod_lt _ (by positivity)).le
  rw [cast_nat_mod w hq, Nat.cast_add, Nat.cast_sub hle, cast_nat_mod w hq]
  push_cast
  rw [hq]; ring

theorem tv_poly_add (w N : Nat) (hq : (2 : R) ^ w = 0) (p q : List Nat) (j : Nat)
    (hj : j < N) : (tv (poly_add w N p q) j : R) = tv p j + tv q j := by
  unfold tv poly_add
  rw [getD_map_range _ _ _ _ hj, cast_torus_add w hq]

theorem tv_poly_sub (w N : Nat) (hq : (2 : R) ^ w = 0) (p q : List Nat) (j : Nat)
    (hj : j < N) : (tv (poly_sub w N p q) j : R) = tv p j - tv q j := by
  unfold tv poly_sub
  rw [getD_map_range _ _ _ _ hj, cast_torus_sub w hq]

theorem tv_poly_mul (w N : Nat) (hq : (2 : R) ^ w = 0) (d : List Int) (p : List Nat) (j : Nat)
    (hj : j < N) : (tv (poly_mul w N d p) j : R) = nc N (iv d) (tv p) j := by
  unfold tv poly_mul nc iv
  rw [getD_map_range _ _ _ _ hj, cast_int_mod w hq]
  push_cast
  apply Finset.sum_congr rfl
  intro i _
  split_ifs <;> rfl

theorem tv_replicate_zero (N : Nat) (j : Nat) : (tv (List.replicate N 0) j : R) = 0 := by
  unfold tv
  rw [getD_replicate_zero]; simp

theorem tv_nil (j : Nat) : (tv [] j : R) = 0 := by
  simp [tv]

theorem iv_nil (j : Nat) : (iv [] j : R) = 0 := by
  simp [iv]

theorem tv_map_range_self (N : Nat) (p : List Nat) (j : Nat) (hj : j < N) :
    (tv ((List.range N).map fun i => p.getD i 0) j : R) = tv p j := by
  unfold tv
  rw [getD_map_range _ _ _ _ hj]

theorem tv_poly_add_const (w N : Nat) (hq : (2 : R) ^ w = 0) (p : List Nat) (c : Nat)
    (j : Nat) (hj : j < N) :
    (tv (poly_add_const w N p c) j : R) = tv p j + (c : R) * (if j = 0 then 1 else 0) := by
  unfold tv poly_add_const
  rw [getD_map_range _ _ _ _ hj]
  split_ifs with h
  · subst h; rw [cast_torus_add w hq]; ring
  · ring

end RingReading

section Phase

variable {R : Type} [CommRing R]

theorem nc_sum_right (N : Nat) (d : Nat → R) (n : Nat) (f : Nat → Nat → R) (j : Nat) :
    nc N d (fun i => ∑ t in Finset.range n, f t i) j = ∑ t in Finset.range n, nc N d (f t) j := by
  induction n with
  | zero => simpa using nc_zero_right N d j
  | succ n ih =>
    simp only [Finset.sum_range_succ]
    rw [nc_add_right, ih]

theorem nc_sum_left (N : Nat) (f : Nat → R) (n : Nat) (d : Nat → Nat → R) (j : Nat) :
    nc N (fun i => ∑ t in Finset.range n, d t i) f j = ∑ t in Finset.range n, nc N (d t) f j := by
  induction n with
  | zero => simpa using nc_zero_left N f j
  | succ n ih =>
    simp only [Finset.sum_range_succ]
    rw [nc_add_left, ih]

theorem nc_neg_right (N : Nat) (d f : Nat → R) (j : Nat) :
    nc N d (fun i => -f i) j = -nc N d f j := by
  have := nc_smul_right N d f (-1) j
  simpa using this

theorem ring_inner_product_sem (w N : Nat) (hq : (2 : R) ^ w = 0) (a : List (List Nat))
    (s : List (List Bool)) (j : Nat) (hj : j < N) :
    (tv (ring_inner_product w N a s) j : R) =
      ∑ i in Finset.range a.length, nc N (iv (key_poly (s.getD i []))) (tv (a.getD i [])) j := by
  induction a generalizing s with
  | nil => simp [ring_inner_product, tv_replicate_zero]
  | cons x xs ih =>
    cases s with
    | nil =>
      simp only [ring_inner_product, tv_replicate_zero]
      symm
      apply Finset.sum_eq_zero
      intro i _
      have : key_poly ([].getD i []) = [] := by simp [key_poly]
      rw [this]
      exact (nc_congr_left N _ (fun _ => 0) _ (fun i _ => iv_nil i) j).trans (nc_zero_left N _ j)
    | cons t ts =>
      simp only [ring_inner_product]
      rw [tv_poly_add w N hq _ _ j hj, tv_poly_mul w N hq _ _ j hj, ih ts, List.length_cons,
        Finset.sum_range_succ', add_comm]
      simp

theorem uniform_poly_list_length {G α : Type} (E : RandGen G α) (w N count : Nat) (rng : G) :
    (uniform_poly_list E w N count rng).1.length = count := by
  induction count generalizing rng with
  | zero => rfl
  | succ c ih => simp [uniform_poly_list, ih]

/-- The decryption phase computed by the model is `phaseR`. -/
theorem phase_sem (w N k : Nat) (hq : (2 : R) ^ w = 0) (s : SecretKey) (x : TRLWE)
    (hx : x.a.length = k) (j : Nat) (hj : j < N) :
    (tv (poly_sub w N x.b (ring_inner_product w N x.a s.lvl1)) j : R) = phaseR N k s x j := by
  rw [tv_poly_sub w N hq _ _ j hj, ring_inner_product_sem w N hq _ _ j hj, hx]
  rfl

theorem phaseR_add (w N k : Nat) (hq : (2 : R) ^ w = 0) (s : SecretKey) (x y : TRLWE)
    (j : Nat) (hj : j < N) :
    (phaseR N k s (TRLWE.add w N k x y) j : R) = phaseR N k s x j + phaseR N k s y j := by
  unfold phaseR TRLWE.add
  simp only
  rw [tv_poly_add w N hq _ _ j hj]
  have : ∀ i ∈ Finset.range k,
      nc N (skey s i) (tv (((List.range k).map fun i =>
        poly_add w N (x.a.getD i []) (y.a.getD i [])).getD i [])) j
      = nc N (skey s i) (tv (x.a.getD i [])) j + (nc N (skey s i) (tv (y.a.getD i [])) j : R) := by
    intro i hi
    rw [Finset.mem_range] at hi
    rw [getD_map_range _ _ _ _ hi, ← nc_add_right]
    exact nc_congr_right N _ _ _ (fun i' hi' => tv_poly_add w N hq _ _ i' hi') j hj
  rw [Finset.sum_congr rfl this, Finset.sum_add_distrib]
  ring

theorem phaseR_sub (w N k : Nat) (hq : (2 : R) ^ w = 0) (s : SecretKey) (x y : TRLWE)
    (j : Nat) (hj : j < N) :
    (phaseR N k s (TRLWE.sub w N k x y) j : R) = phaseR N k s x j - phaseR N k s y j := by
  unfold phaseR TRLWE.sub
  simp only
  rw [tv_poly_sub w N hq _ _ j hj]
  have : ∀ i ∈ Finset.range k,
      nc N (skey s i) (tv (((List.range k).map fun i =>
        poly_sub w N (x.a.getD i []) (y.a.getD i [])).getD i [])) j
      = nc N (skey s i) (tv (x.a.getD i [])) j - (nc N (skey s i) (tv (y.a.getD i [])) j : R) := by
    intro i hi
    rw [Finset.mem_range] at hi
    rw [getD_map_range _ _ _ _ hi, ← nc_sub_right]
    exact nc_congr_right N _ _ _ (fun i' hi' => tv_poly_sub w N hq _ _ i' hi') j hj
  rw [Finset.sum_congr rfl this, Finset.sum_sub_distrib]
  ring

theorem phaseR_scale (w N k : Nat) (hq : (2 : R) ^ w = 0) (s : SecretKey) (d : List Int)
    (x : TRLWE) (j : Nat) (hj : j < N) :
    (phaseR N k s (TRLWE.scale w N k d x) j : R) = nc N (iv d) (phaseR N k s x) j := by
  unfold phaseR TRLWE.scale
  simp only
  rw [tv_poly_mul w N hq _ _ j hj, nc_sub_right, nc_sum_right]
  congr 1
  apply Finset.sum_congr rfl
  intro i hi
  rw [Finset.mem_range] at hi
  rw [getD_map_range _ _ _ _ hi, ← nc_nc_comm N _ _ _ j hj]
  exact nc_congr_right N _ _ _ (fun i' hi' => tv_poly_mul w N hq _ _ i' hi') j hj

theorem phaseR_zero (N k : Nat) (s : SecretKey) (j : Nat) :
    (phaseR N k s (TRLWE.zero N k) j : R) = 0 := by
  unfold phaseR TRLWE.zero
  simp only
  rw [tv_replicate_zero, zero_sub, neg_eq_zero]
  apply Finset.sum_eq_zero
  intro i hi
  rw [Finset.mem_range] at hi
  have : (List.replicate k (List.replicate N 0)).getD i [] = List.replicate N 0 := by
    rw [List.getD_eq_getElem?_getD, List.getElem?_replicate, if_pos hi]; rfl
  rw [this]
  exact (nc_congr_right_all N _ _ (fun _ => 0) (fun i' => tv_replicate_zero N i') j).trans
    (nc_zero_right N _ j)

end Phase

section Gadget

variable {R : Type} [CommRing R]
variable {α : Type} [LinearOrderedField α] [FloorRing α]

theorem phaseR_encrypt {G : Type} (P : Parameters α) (E : RandGen G α)
    (hq : (2 : R) ^ P.digits = 0) (s : SecretKey) (m : List Bool) (rng : G)
    (j : Nat) (hj : j < P.N) :
    (phaseR P.N P.k s (TRLWE.encrypt P E s m rng).1 j : R) =
      tv (mu_poly P.digits P.N m) j + tv (TRLWE.encrypt_noise P E rng) j := by
  have hlen := uniform_poly_list_length E P.digits P.N P.k rng
  have h := ring_inner_product_sem P.digits P.N hq
    (uniform_poly_list E P.digits P.N P.k rng).1 s.lvl1 j hj
  rw [hlen] at h
  unfold phaseR TRLWE.encrypt TRLWE.encrypt_noise
  simp only
  rw [tv_poly_add _ _ hq _ _ j hj, tv_poly_add _ _ hq _ _ j hj, h]
  unfold skey
  ring

theorem phaseR_encrypt_zero {G : Type} (P : Parameters α) (E : RandGen G α)
    (hq : (2 : R) ^ P.digits = 0) (s : SecretKey) (rng : G) (j : Nat) (hj : j < P.N) :
    (phaseR P.N P.k s (TRLWE.encrypt_zero P E s rng).1 j : R) =
      tv (TRLWE.encrypt_noise P E rng) j := by
  have hlen := uniform_poly_list_length E P.digits P.N P.k rng
  have h := ring_inner_product_sem P.digits P.N hq
    (uniform_poly_list E P.digits P.N P.k rng).1 s.lvl1 j hj
  rw [hlen] at h
  unfold phaseR TRLWE.encrypt_zero TRLWE.encrypt_noise
  simp only
  rw [tv_poly_add _ _ hq _ _ j hj, h]
  unfold skey
  ring

theorem phaseR_add_gadget (w N k : Nat) (hq : (2 : R) ^ w = 0) (s : SecretKey) (row : TRLWE)
    (block c : Nat) (j : Nat) (hj : j < N) :
    (phaseR N k s (TRLWE.add_gadget w N k row block c) j : R) =
      phaseR N k s row j + (c : R) * gad k s block j := by
  unfold phaseR TRLWE.add_gadget gad
  simp only
  have hmask : ∀ i ∈ Finset.range k,
      nc N (skey s i) (tv (((List.range k).map fun i =>
        if i = block then poly_add_const w N (row.a.getD i []) c
        else (List.range N).map fun j => (row.a.getD i []).getD j 0).getD i [])) j
      = nc N (skey s i) (tv (row.a.getD i [])) j
        + (if i = block then (c : R) * skey s block j else 0) := by
    intro i hi
    rw [Finset.mem_range] at hi
    rw [getD_map_range _ _ _ _ hi]
    by_cases hib : i = block
    · subst hib
      simp only [if_true]
      have e := nc_congr_right N (skey s i) _
        (fun i' => tv (row.a.getD i []) i' + (c : R) * (if i' = 0 then 1 else 0))
        (fun i' hi' => tv_poly_add_const w N hq (row.a.getD i []) c i' hi') j hj
      rw [e, nc_add_right, nc_smul_right, nc_delta_right N _ j hj]
    · simp only [hib, if_false, add_zero]
      exact nc_congr_right N _ _ _ (fun i' hi' => tv_map_range_self N _ i' hi') j hj
  rw [Finset.sum_congr rfl hmask, Finset.sum_add_distrib, Finset.sum_ite_eq']
  by_cases hk : k ≤ block
  · have hnot : block ∉ Finset.range k := by simp; omega
    simp only [hk, if_true, hnot, if_false]
    rw [tv_poly_add_const w N hq _ _ j hj]
    ring
  · have hmem : block ∈ Finset.range k := by simp; omega
    simp only [hk, if_false, hmem, if_true]
    rw [tv_map_range_self N _ j hj]
    ring

end Gadget

section Rows

variable {R : Type} [CommRing R]
variable {α : Type} [LinearOrderedField α] [FloorRing α]

theorem cast_gadget_const (w Bg t : Nat) (hq : (2 : R) ^ w = 0) (value : Int) :
    ((gadget_const w Bg t value : Nat) : R) = (value : R) * ((2 ^ w / Bg ^ t : Nat) : R) := by
  unfold gadget_const
  rw [cast_int_mod w hq, Int.cast_mul, Int.cast_natCast]

/-- The phase of the gadget inner product over any list of row positions: the
row noise plus `value` times the digit-weighted gadget phases. -/
theorem phaseR_gadget_sum {G : Type} (P : Parameters α) (E : RandGen G α)
    (hq : (2 : R) ^ P.digits = 0) (s : SecretKey) (value : Int) (c : TRLWE)
    (idx : List (Nat × Nat)) (rng : G) (j : Nat) (hj : j < P.N) :
    (phaseR P.N P.k s (gadget_sum P c idx (trgsw_rows P E s value idx rng).1) j : R) =
      tv (gadget_noise P E c idx rng) j +
      (value : R) * (idx.map fun pos =>
        ((2 ^ P.digits / P.Bg ^ pos.2 : Nat) : R) *
          nc P.N (iv (digit_poly P.digits P.N P.Bg P.l (TRLWE.component P.k c pos.1) pos.2))
            (gad P.k s pos.1) j).sum := by
  induction idx generalizing rng with
  | nil =>
    simp only [trgsw_rows, gadget_sum, gadget_noise, List.map_nil, List.sum_nil, mul_zero,
      add_zero]
    rw [phaseR_zero, tv_replicate_zero]
  | cons pos rest ih =>
    simp only [trgsw_rows, gadget_sum, gadget_noise, List.map_cons, List.sum_cons]
    rw [phaseR_add _ _ _ hq _ _ _ j hj, phaseR_scale _ _ _ hq _ _ _ j hj,
      tv_poly_add _ _ hq _ _ j hj, tv_poly_mul _ _ hq _ _ j hj]
    have hrow : ∀ i, i < P.N →
        (phaseR P.N P.k s (TRLWE.add_gadget P.digits P.N P.k (TRLWE.encrypt_zero P E s rng).1
          pos.1 (gadget_const P.digits P.Bg pos.2 value)) i : R)
        = tv (TRLWE.encrypt_noise P E rng) i
          + ((value : R) * ((2 ^ P.digits / P.Bg ^ pos.2 : Nat) : R)) * gad P.k s pos.1 i := by
      intro i hi
      rw [phaseR_add_gadget _ _ _ hq _ _ _ _ i hi, phaseR_encrypt_zero P E hq s rng i hi,
        cast_gadget_const _ _ _ hq]
    rw [nc_congr_right P.N _ _ _ hrow j hj, nc_add_right, nc_smul_right]
    have hstate : (TRLWE.encrypt_zero P E s rng).2 = TRLWE.encrypt_state P E rng := rfl
    rw [hstate, ih (TRLWE.encrypt_state P E rng)]
    ring

theorem cast_decomp_error (w Bg l : Nat) (hq : (2 : R) ^ w = 0) (x : Nat) :
    ((decomp_error w Bg l x : Nat) : R) =
      ∑ t in Finset.range l,
        (((decompose w Bg l x).getD t 0 : Int) : R) * ((2 ^ w / Bg ^ (t + 1) : Nat) : R)
      - (x : R) := by
  unfold decomp_error
  rw [cast_int_mod w hq, Int.cast_sub, Int.cast_sum, Int.cast_natCast]
  simp only [Int.cast_mul, Int.cast_natCast]

/-- The digits of a component, weighted by the gadget constants, rebuild the
component up to the decomposition error. -/
theorem digit_sum_eq (w N Bg l : Nat) (hq : (2 : R) ^ w = 0) (p : List Nat) (j : Nat)
    (hj : j < N) :
    (∑ t in Finset.range l,
        ((2 ^ w / Bg ^ (t + 1) : Nat) : R) * iv (digit_poly w N Bg l p (t + 1)) j)
      = tv p j + tv (decomp_error_poly w N Bg l p) j := by
  have h : (tv (decomp_error_poly w N Bg l p) j : R) = ((decomp_error w Bg l (p.getD j 0) : Nat) : R) := by
    unfold tv decomp_error_poly
    rw [getD_map_range _ _ _ _ hj]
  rw [h, cast_decomp_error w Bg l hq]
  unfold tv
  have : ∀ t ∈ Finset.range l,
      ((2 ^ w / Bg ^ (t + 1) : Nat) : R) * iv (digit_poly w N Bg l p (t + 1)) j
      = (((decompose w Bg l (p.getD j 0)).getD t 0 : Int) : R) * ((2 ^ w / Bg ^ (t + 1) : Nat) : R) := by
    intro t _
    unfold iv digit_poly
    rw [getD_map_range _ _ _ _ hj, Nat.add_sub_cancel]
    ring
  rw [Finset.sum_congr rfl this]
  ring

end Rows

section ExternalProduct

variable {R : Type} [CommRing R]
variable {α : Type} [LinearOrderedField α] [FloorRing α]

theorem gadget_index_sum {M : Type} [AddCommMonoid M] (k l : Nat) (F : Nat × Nat → M) :
    ((gadget_index k l).map F).sum =
      ∑ i in Finset.range (k + 1), ∑ t in Finset.range l, F (i, t + 1) := by
  unfold gadget_index
  rw [sum_map_flatMap_range]
  apply Finset.sum_congr rfl
  intro i _
  rw [List.map_map, sum_map_range]
  rfl

/-- The digit-weighted gadget phases of one block rebuild the block's component
and its decomposition error, convolved with the gadget phase of the block. -/
theorem block_sum_eq (w N k Bg l : Nat) (hq : (2 : R) ^ w = 0) (s : SecretKey) (p : List Nat)
    (block : Nat) (j : Nat) :
    (∑ t in Finset.range l, ((2 ^ w / Bg ^ (t + 1) : Nat) : R) *
        nc N (iv (digit_poly w N Bg l p (t + 1))) (gad k s block) j)
      = nc N (tv p) (gad k s block) j
        + nc N (tv (decomp_error_poly w N Bg l p)) (gad k s block) j := by
  have h1 : ∀ t ∈ Finset.range l, ((2 ^ w / Bg ^ (t + 1) : Nat) : R) *
        nc N (iv (digit_poly w N Bg l p (t + 1))) (gad k s block) j
      = nc N (fun i => ((2 ^ w / Bg ^ (t + 1) : Nat) : R) * iv (digit_poly w N Bg l p (t + 1)) i)
          (gad k s block) j := by
    intro t _
    rw [nc_smul_left]
  rw [Finset.sum_congr rfl h1, ← nc_sum_left, ← nc_add_left]
  exact nc_congr_left N _ _ _ (fun i hi => digit_sum_eq w N Bg l hq p i hi) j

/-- Phase of an external product: `value` times the phase of the input and of
its decomposition error, plus the row noise. -/
theorem phaseR_external_product {G : Type} (P : Parameters α) (E : RandGen G α)
    (hq : (2 : R) ^ P.digits = 0) (s : SecretKey) (value : Int) (c : TRLWE) (rng : G)
    (j : Nat) (hj : j < P.N) :
    (phaseR P.N P.k s (external_product P (TRGSW.encrypt P E s value rng).1 c) j : R) =
      (value : R) * (phaseR P.N P.k s c j + phaseR P.N P.k s (TRLWE.decomp_error P c) j)
      + tv (gadget_noise P E c (gadget_index P.k P.l) rng) j := by
  unfold external_product TRGSW.encrypt
  simp only
  rw [phaseR_gadget_sum P E hq s value c _ rng j hj, gadget_index_sum]
  simp only
  have hblock : ∀ i ∈ Finset.range (P.k + 1),
      (∑ t in Finset.range P.l, ((2 ^ P.digits / P.Bg ^ (t + 1) : Nat) : R) *
        nc P.N (iv (digit_poly P.digits P.N P.Bg P.l (TRLWE.component P.k c i) (t + 1)))
          (gad P.k s i) j)
      = nc P.N (tv (TRLWE.component P.k c i)) (gad P.k s i) j
        + nc P.N (tv (decomp_error_poly P.digits P.N P.Bg P.l (TRLWE.component P.k c i)))
            (gad P.k s i) j := by
    intro i _
    exact block_sum_eq P.digits P.N P.k P.Bg P.l hq s _ i j
  rw [Finset.sum_congr rfl hblock, Finset.sum_range_succ]
  have hmask : ∀ i ∈ Finset.range P.k,
      nc P.N (tv (TRLWE.component P.k c i)) (gad P.k s i) j
        + nc P.N (tv (decomp_error_poly P.digits P.N P.Bg P.l (TRLWE.component P.k c i)))
            (gad P.k s i) j
      = -(nc P.N (skey s i) (tv (c.a.getD i [])) j)
        - (nc P.N (skey s i) (tv ((TRLWE.decomp_error P c).a.getD i [])) j : R) := by
    intro i hi
    rw [Finset.mem_range] at hi
    have hg : (gad P.k s i : Nat → R) = fun j' => -skey s i j' := by
      funext j'
      unfold gad
      rw [if_neg (by omega)]
    have hcomp : TRLWE.component P.k c i = c.a.getD i [] := by
      unfold TRLWE.component
      rw [if_pos hi]
    have herr : (TRLWE.decomp_error P c).a.getD i []
        = decomp_error_poly P.digits P.N P.Bg P.l (c.a.getD i []) := by
      unfold TRLWE.decomp_error
      simp only
      rw [getD_map_range _ _ _ _ hi]
    rw [hg, hcomp, herr, nc_neg_right, nc_neg_right, nc_comm P.N _ (skey s i) j hj,
      nc_comm P.N _ (skey s i) j hj]
    ring
  have hbody : nc P.N (tv (TRLWE.component P.k c P.k)) (gad P.k s P.k) j
        + nc P.N (tv (decomp_error_poly P.digits P.N P.Bg P.l (TRLWE.component P.k c P.k)))
            (gad P.k s P.k) j
      = tv c.b j + (tv (TRLWE.decomp_error P c).b j : R) := by
    have hg : (gad P.k s P.k : Nat → R) = fun j' => if j' = 0 then 1 else 0 := by
      funext j'
      unfold gad
      rw [if_pos (le_refl _)]
    have hcomp : TRLWE.component P.k c P.k = c.b := by
      unfold TRLWE.component
      rw [if_neg (by omega)]
    rw [hg, hcomp, nc_delta_right P.N _ j hj, nc_delta_right P.N _ j hj]
    rfl
  rw [Finset.sum_congr rfl hmask, hbody]
  unfold phaseR
  rw [Finset.sum_sub_distrib, Finset.sum_neg_distrib]
  ring

end ExternalProduct

section Decrypt

variable {α : Type}

theorem zmod_two_pow (w : Nat) : (2 : ZMod (2 ^ w)) ^ w = 0 := by
  have := ZMod.natCast_self (2 ^ w)
  push_cast at this
  exact this

theorem tv_poly_scale {R : Type} [CommRing R] (w N : Nat) (hq : (2 : R) ^ w = 0) (value : Int)
    (p : List Nat) (j : Nat) (hj : j < N) :
    (tv (poly_scale w N value p) j : R) = (value : R) * tv p j := by
  unfold tv poly_scale
  rw [getD_map_range _ _ _ _ hj, cast_int_mod w hq, Int.cast_mul, Int.cast_natCast]

theorem tv_mu_poly {R : Type} [CommRing R] (w N : Nat) (m : List Bool) (j : Nat) (hj : j < N) :
    (tv (mu_poly w N m) j : R) = ((mu w (m.getD j false) : Nat) : R) := by
  unfold tv mu_poly
  rw [getD_map_range _ _ _ _ hj]

theorem cast_mu_not {R : Type} [CommRing R] (w : Nat) (hq : (2 : R) ^ w = 0) (b : Bool) :
    ((mu w (!b) : Nat) : R) = -((mu w b : Nat) : R) := by
  have hle : 2 ^ w / 8 ≤ 2 ^ w := Nat.div_le_self _ _
  cases b <;> simp only [mu, Bool.not_false, Bool.not_true, if_true, Bool.false_eq_true,
    if_false] <;> rw [Nat.cast_sub hle] <;> push_cast <;> rw [hq] <;> ring

theorem poly_add_getD_lt (w N : Nat) (p q : List Nat) (j : Nat) (hj : j < N) :
    (poly_add w N p q).getD j 0 < 2 ^ w := by
  unfold poly_add
  rw [getD_map_range _ _ _ _ hj]
  exact Nat.mod_lt _ (by positivity)

/-- The phase computed by the decryption, as a Torus value, from its reading in
`ZMod (2 ^ w)`. -/
theorem phase_eq_of_phaseR (P : Parameters α) (s : SecretKey) (x : TRLWE)
    (hx : x.a.length = P.k) (bit : Bool) (noise : List Nat) (j : Nat) (hj : j < P.N)
    (hphase : (phaseR P.N P.k s x j : ZMod (2 ^ P.digits))
      = ((mu P.digits bit : Nat) : ZMod (2 ^ P.digits)) + tv noise j) :
    (poly_sub P.digits P.N x.b (ring_inner_product P.digits P.N x.a s.lvl1)).getD j 0
      = (mu P.digits bit + noise.getD j 0) % 2 ^ P.digits := by
  have hq := zmod_two_pow P.digits
  have hsem := phase_sem P.digits P.N P.k hq s x hx j hj
  rw [hphase] at hsem
  unfold tv at hsem
  rw [← Nat.cast_add, ZMod.natCast_eq_natCast_iff'] at hsem
  have hφ : (poly_sub P.digits P.N x.b (ring_inner_product P.digits P.N x.a s.lvl1)).getD j 0
      < 2 ^ P.digits := by
    unfold poly_sub
    rw [getD_map_range _ _ _ _ hj]
    exact Nat.mod_lt _ (by positivity)
  rw [Nat.mod_eq_of_lt hφ] at hsem
  exact hsem

/-- A ciphertext whose phase is `μ(bit) + noise` in coefficient `j`, with a noise
of signed magnitude below `1/8` of the range, decrypts to `bit` there. -/
theorem decrypt_of_phase (P : Parameters α) (hw : 3 ≤ P.digits) (s : SecretKey) (x : TRLWE)
    (bit : Bool) (noise : List Nat) (j : Nat) (hj : j < P.N)
    (hphase : (poly_sub P.digits P.N x.b (ring_inner_product P.digits P.N x.a s.lvl1)).getD j 0
      = (mu P.digits bit + noise.getD j 0) % 2 ^ P.digits)
    (hlt : noise.getD j 0 < 2 ^ P.digits)
    (hsmall : (torus_signed P.digits (noise.getD j 0)).natAbs < 2 ^ P.digits / 8) :
    (TRLWE.decrypt_poly_bool P x s).getD j false = bit := by
  unfold TRLWE.decrypt_poly_bool
  rw [getD_map_range _ _ _ _ hj, hphase]
  exact nearer_of_noise P.digits hw bit _ hlt hsmall

theorem gadget_sum_length (P : Parameters α) (c : TRLWE) (idx : List (Nat × Nat))
    (rows : List TRLWE) : (gadget_sum P c idx rows).a.length = P.k := by
  cases idx with
  | nil => simp [gadget_sum, TRLWE.zero]
  | cons pos ps =>
    cases rows with
    | nil => simp [gadget_sum, TRLWE.zero]
    | cons row rows => simp [gadget_sum, TRLWE.add]

theorem tv_external_product_noise {G R : Type} [CommRing R] [LinearOrderedField α]
    [FloorRing α] (P : Parameters α)
    (E : RandGen G α) (hq : (2 : R) ^ P.digits = 0) (s : SecretKey) (value : Int) (c : TRLWE)
    (in_noise : List Nat) (rng : G) (j : Nat) (hj : j < P.N) :
    (tv (external_product_noise P E s value c in_noise rng) j : R) =
      tv (gadget_noise P E c (gadget_index P.k P.l) rng) j
      + (value : R) * (tv in_noise j + phaseR P.N P.k s (TRLWE.decomp_error P c) j) := by
  unfold external_product_noise
  have hlen : (TRLWE.decomp_error P c).a.length = P.k := by simp [TRLWE.decomp_error]
  rw [tv_poly_add _ _ hq _ _ j hj, tv_poly_scale _ _ hq _ _ j hj, tv_poly_add _ _ hq _ _ j hj,
    phase_sem _ _ _ hq s _ hlen j hj]

end Decrypt

section Claims

variable {α : Type} [LinearOrderedField α] [FloorRing α]

/-- The noise of an external product with a unit plaintext is the phase of the
result minus the encoded expected message: in every coefficient the phase is
`μ(expected bit) + external_product_noise`, modulo `2 ^ w`. -/
theorem external_product_unit_phase {G : Type} (P : Parameters α) (E : RandGen G α)
    (s : SecretKey) (m : List Bool) (c : Int) (rng₁ rng₂ : G) (hc : c = 1 ∨ c = -1)
    (j : Nat) (hj : j < P.N) :
    (poly_sub P.digits P.N
        (external_product P (TRGSW.encrypt P E s c rng₁).1 (TRLWE.encrypt P E s m rng₂).1).b
        (ring_inner_product P.digits P.N
          (external_product P (TRGSW.encrypt P E s c rng₁).1 (TRLWE.encrypt P E s m rng₂).1).a
          s.lvl1)).getD j 0
      = (mu P.digits (if c = 1 then m.getD j false else !(m.getD j false))
          + (external_product_noise P E s c (TRLWE.encrypt P E s m rng₂).1
              (TRLWE.encrypt_noise P E rng₂) rng₁).getD j 0) % 2 ^ P.digits := by
  have hq := zmod_two_pow P.digits
  have hlen : (external_product P (TRGSW.encrypt P E s c rng₁).1
      (TRLWE.encrypt P E s m rng₂).1).a.length = P.k := gadget_sum_length P _ _ _
  apply phase_eq_of_phaseR P s _ hlen _ _ j hj
  rw [phaseR_external_product P E hq s c _ rng₁ j hj, phaseR_encrypt P E hq s m rng₂ j hj,
    tv_external_product_noise P E hq s c _ _ rng₁ j hj, tv_mu_poly _ _ _ _ hj]
  rcases hc with h | h
  · subst h
    simp only [if_true]
    push_cast
    ring
  · subst h
    simp only [show ¬ ((-1 : Int) = 1) by decide, if_false]
    rw [cast_mu_not _ hq]
    push_cast
    ring

/-- The noise of a CMUX is the phase of the result minus the encoded selected
message: in every coefficient the phase is `μ(selected bit) + cmux_noise`,
modulo `2 ^ w`. -/
theorem cmux_phase {G : Type} (P : Parameters α) (E : RandGen G α) (s : SecretKey)
    (t f : List Bool) (c : Bool) (rng_c rng_t rng_f : G) (j : Nat) (hj : j < P.N) :
    (poly_sub P.digits P.N
        (cmux P (TRGSW.encrypt P E s (if c then 1 else 0) rng_c).1
          (TRLWE.encrypt P E s t rng_t).1 (TRLWE.encrypt P E s f rng_f).1).b
        (ring_inner_product P.digits P.N
          (cmux P (TRGSW.encrypt P E s (if c then 1 else 0) rng_c).1
            (TRLWE.encrypt P E s t rng_t).1 (TRLWE.encrypt P E s f rng_f).1).a
          s.lvl1)).getD j 0
      = (mu P.digits (if c then t.getD j false else f.getD j false)
          + (cmux_noise P E s c (TRLWE.encrypt P E s t rng_t).1 (TRLWE.encrypt P E s f rng_f).1
              (TRLWE.encrypt_noise P E rng_t) (TRLWE.encrypt_noise P E rng_f) rng_c).getD j 0)
        % 2 ^ P.digits := by
  have hq := zmod_two_pow P.digits
  have hlen : (cmux P (TRGSW.encrypt P E s (if c then 1 else 0) rng_c).1
      (TRLWE.encrypt P E s t rng_t).1 (TRLWE.encrypt P E s f rng_f).1).a.length = P.k := by
    simp [cmux, TRLWE.add]
  apply phase_eq_of_phaseR P s _ hlen _ _ j hj
  unfold cmux cmux_noise
  rw [phaseR_add _ _ _ hq _ _ _ j hj, phaseR_external_product P E hq s _ _ rng_c j hj,
    phaseR_sub _ _ _ hq _ _ _ j hj, phaseR_encrypt P E hq s t rng_t j hj,
    phaseR_encrypt P E hq s f rng_f j hj, tv_poly_add _ _ hq _ _ j hj,
    tv_external_product_noise P E hq s _ _ _ rng_c j hj, tv_poly_sub _ _ hq _ _ j hj,
    tv_mu_poly _ _ _ _ hj, tv_mu_poly _ _ _ _ hj]
  cases c
  · simp only [Bool.false_eq_true, if_false]
    push_cast
    ring
  · simp only [if_true]
    push_cast
    ring

/-- C3: external product with a unit plaintext.  For every key, binary
polynomial `m`, `c` in `{1, -1}` and engine states, when the noise of the result
has signed magnitude below `1/8` of the Torus range in every coefficient,
`external_product (TRGSW.encrypt s c) (TRLWE.encrypt s m)` decrypts to `m` when
`c = 1` and to the coefficientwise complement of `m` when `c = -1`. -/
theorem external_product_unit {G : Type} (P : Parameters α) (E : RandGen G α) (s : SecretKey)
    (m : List Bool) (c : Int) (rng₁ rng₂ : G) (hw : 3 ≤ P.digits) (hc : c = 1 ∨ c = -1)
    (hnoise : ∀ j, j < P.N →
      (torus_signed P.digits
        ((external_product_noise P E s c (TRLWE.encrypt P E s m rng₂).1
          (TRLWE.encrypt_noise P E rng₂) rng₁).getD j 0)).natAbs < 2 ^ P.digits / 8) :
    ∀ j, j < P.N →
      (TRLWE.decrypt_poly_bool P
        (external_product P (TRGSW.encrypt P E s c rng₁).1 (TRLWE.encrypt P E s m rng₂).1)
        s).getD j false
      = if c = 1 then m.getD j false else !(m.getD j false) := by
  intro j hj
  apply decrypt_of_phase P hw s _ _
    (external_product_noise P E s c (TRLWE.encrypt P E s m rng₂).1
      (TRLWE.encrypt_noise P E rng₂) rng₁) j hj
    (external_product_unit_phase P E s m c rng₁ rng₂ hc j hj) _ (hnoise j hj)
  unfold external_product_noise
  exact poly_add_getD_lt _ _ _ _ j hj

/-- C4: CMUX selection.  For every key, pair of binary polynomials `t`, `f`,
selector bit `c` and engine states, when the noise of the result has signed
magnitude below `1/8` of the Torus range in every coefficient,
`cmux (TRGSW.encrypt s c) (TRLWE.encrypt s t) (TRLWE.encrypt s f)` decrypts to
`t` when `c` is `1` and to `f` when `c` is `0`, in every coefficient. -/
theorem cmux_select {G : Type} (P : Parameters α) (E : RandGen G α) (s : SecretKey)
    (t f : List Bool) (c : Bool) (rng_c rng_t rng_f : G) (hw : 3 ≤ P.digits)
    (hnoise : ∀ j, j < P.N →
      (torus_signed P.digits
        ((cmux_noise P E s c (TRLWE.encrypt P E s t rng_t).1 (TRLWE.encrypt P E s f rng_f).1
          (TRLWE.encrypt_noise P E rng_t) (TRLWE.encrypt_noise P E rng_f) rng_c).getD j 0)).natAbs
        < 2 ^ P.digits / 8) :
    ∀ j, j < P.N →
      (TRLWE.decrypt_poly_bool P
        (cmux P (TRGSW.encrypt P E s (if c then 1 else 0) rng_c).1
          (TRLWE.encrypt P E s t rng_t).1 (TRLWE.encrypt P E s f rng_f).1)
        s).getD j false
      = if c then t.getD j false else f.getD j false := by
  intro j hj
  apply decrypt_of_phase P hw s _ _
    (cmux_noise P E s c (TRLWE.encrypt P E s t rng_t).1 (TRLWE.encrypt P E s f rng_f).1
      (TRLWE.encrypt_noise P E rng_t) (TRLWE.encrypt_noise P E rng_f) rng_c) j hj
    (cmux_phase P E s t f c rng_c rng_t rng_f j hj) _ (hnoise j hj)
  unfold cmux_noise
  exact poly_add_getD_lt _ _ _ _ j hj

end Claims

/-! ## The gadget decomposition is a balanced rounding -/

section Decomposition

theorem balanced_rem_range (Bg : Nat) (hBg : 0 < Bg) (r : Int) :
    -(Bg : Int) < 2 * balanced_rem Bg r ∧ 2 * balanced_rem Bg r ≤ (Bg : Int) := by
  have h0 : 0 ≤ r % (Bg : Int) := Int.emod_nonneg _ (by omega)
  have h1 : r % (Bg : Int) < Bg := Int.emod_lt_of_pos _ (by omega)
  unfold balanced_rem
  split_ifs with h <;> constructor <;> omega

theorem balanced_rem_dvd (Bg : Nat) (r : Int) : (Bg : Int) ∣ r - balanced_rem Bg r := by
  have h : (Bg : Int) ∣ r - r % (Bg : Int) := Int.dvd_sub_of_emod_eq rfl
  unfold balanced_rem
  split_ifs
  · exact h
  · have e : r - (r % (Bg : Int) - Bg) = (r - r % (Bg : Int)) + Bg := by ring
    rw [e]
    exact dvd_add h (dvd_refl _)

theorem balanced_digits_length (Bg count : Nat) (r : Int) :
    (balanced_digits Bg count r).length = count := by
  induction count generalizing r with
  | zero => rfl
  | succ c ih => simp [balanced_digits, ih]

/-- Every digit of the decomposition lies in `(-Bg/2, Bg/2]`. -/
theorem balanced_digits_range (Bg : Nat) (hBg : 0 < Bg) (count : Nat) (r : Int) (i : Nat) :
    -(Bg : Int) < 2 * (balanced_digits Bg count r).getD i 0 ∧
      2 * (balanced_digits Bg count r).getD i 0 ≤ (Bg : Int) := by
  induction count generalizing r i with
  | zero => simp [balanced_digits]; omega
  | succ c ih =>
    cases i with
    | zero => simpa [balanced_digits] using balanced_rem_range Bg hBg r
    | succ i => simpa [balanced_digits] using ih _ i

/-- The balanced digits rebuild `r` modulo `Bg ^ count`. -/
theorem balanced_digits_sum (Bg count : Nat) (r : Int) :
    ∃ q : Int, r = ∑ i in Finset.range count,
      (balanced_digits Bg count r).getD i 0 * (Bg : Int) ^ i + (Bg : Int) ^ count * q := by
  induction count generalizing r with
  | zero => exact ⟨r, by simp⟩
  | succ c ih =>
    obtain ⟨q, hq⟩ := ih ((r - balanced_rem Bg r) / (Bg : Int))
    refine ⟨q, ?_⟩
    have hd := Int.ediv_mul_cancel (balanced_rem_dvd Bg r)
    rw [Finset.sum_range_succ']
    simp only [balanced_digits, List.getD_cons_succ, List.getD_cons_zero, pow_zero, mul_one]
    have e : ∑ i in Finset.range c,
        (balanced_digits Bg c ((r - balanced_rem Bg r) / (Bg : Int))).getD i 0
          * (Bg : Int) ^ (i + 1)
        = (Bg : Int) * ∑ i in Finset.range c,
          (balanced_digits Bg c ((r - balanced_rem Bg r) / (Bg : Int))).getD i 0
            * (Bg : Int) ^ i := by
      rw [Finset.mul_sum]
      apply Finset.sum_congr rfl
      intro i _
      ring
    rw [e]
    have e2 : (Bg : Int) * ∑ i in Finset.range c,
          (balanced_digits Bg c ((r - balanced_rem Bg r) / (Bg : Int))).getD i 0
            * (Bg : Int) ^ i
        = (Bg : Int) * ((r - balanced_rem Bg r) / (Bg : Int) - (Bg : Int) ^ c * q) := by
      congr 1
      linarith
    rw [e2]
    have e3 : (Bg : Int) * ((r - balanced_rem Bg r) / (Bg : Int)) = r - balanced_rem Bg r := by
      rw [mul_comm]; exact hd
    rw [mul_sub, e3]
    ring

theorem decompose_getD (w Bg l x t : Nat) (ht : t < l) :
    (decompose w Bg l x).getD t 0 =
      (balanced_digits Bg l
        (((x : Int) + ((2 ^ w / Bg ^ l / 2 : Nat) : Int)) / ((2 ^ w / Bg ^ l : Nat) : Int))).getD
        (l - 1 - t) 0 := by
  unfold decompose
  rw [List.getD_eq_getElem?_getD, List.getD_eq_getElem?_getD,
    List.getElem?_reverse (by rw [balanced_digits_length]; exact ht), balanced_digits_length]

/-- The digits of `decompose` lie in `(-Bg/2, Bg/2]`. -/
theorem decompose_range (w Bg l x : Nat) (hBg : 0 < Bg) (t : Nat) :
    -(Bg : Int) < 2 * (decompose w Bg l x).getD t 0 ∧
      2 * (decompose w Bg l x).getD t 0 ≤ (Bg : Int) := by
  rcases Nat.lt_or_ge t l with ht | ht
  · rw [decompose_getD w Bg l x t ht]
    exact balanced_digits_range Bg hBg _ _ _
  · have : (decompose w Bg l x).getD t 0 = 0 := by
      rw [List.getD_eq_getElem?_getD, List.getElem?_eq_none]
      · rfl
      · unfold decompose
        rw [List.length_reverse, balanced_digits_length]
        exact ht
    rw [this]
    omega

theorem gadget_weight_eq (w Bg l t : Nat) (hdiv : Bg ^ l ∣ 2 ^ w) (ht : t < l) :
    2 ^ w / Bg ^ (t + 1) = 2 ^ w / Bg ^ l * Bg ^ (l - 1 - t) := by
  have hBg : 0 < Bg := by
    rcases Nat.eq_zero_or_pos Bg with h | h
    · exfalso
      subst h
      rw [zero_pow (by omega)] at hdiv
      have := Nat.eq_zero_of_zero_dvd hdiv
      have h2 : 0 < 2 ^ w := by positivity
      omega
    · exact h
  have hsplit : Bg ^ l = Bg ^ (l - 1 - t) * Bg ^ (t + 1) := by
    rw [← pow_add]; congr 1; omega
  have hpos : 0 < Bg ^ (t + 1) := by positivity
  apply Nat.div_eq_of_eq_mul_left hpos
  rw [mul_assoc, ← hsplit, Nat.div_mul_cancel hdiv]

/-- The weighted digits of `decompose` rebuild the rounded value modulo
`2 ^ w`. -/
theorem decompose_sum (w Bg l x : Nat) (hdiv : Bg ^ l ∣ 2 ^ w) :
    ∃ q : Int, ∑ t in Finset.range l,
        (decompose w Bg l x).getD t 0 * ((2 ^ w / Bg ^ (t + 1) : Nat) : Int)
      = ((2 ^ w / Bg ^ l : Nat) : Int) *
          (((x : Int) + ((2 ^ w / Bg ^ l / 2 : Nat) : Int)) / ((2 ^ w / Bg ^ l : Nat) : Int))
        - (2 ^ w : Int) * q := by
  have hu : ((2 ^ w : Nat) : Int) = ((2 ^ w / Bg ^ l : Nat) : Int) * (Bg : Int) ^ l := by
    rw [← Nat.cast_pow, ← Nat.cast_mul, Nat.div_mul_cancel hdiv]
  have hM : (2 ^ w : Int) = ((2 ^ w : Nat) : Int) := by push_cast; rfl
  have hterm : ∀ t ∈ Finset.range l,
      (decompose w Bg l x).getD t 0 * ((2 ^ w / Bg ^ (t + 1) : Nat) : Int)
      = ((2 ^ w / Bg ^ l : Nat) : Int) *
        ((balanced_digits Bg l
          (((x : Int) + ((2 ^ w / Bg ^ l / 2 : Nat) : Int)) / ((2 ^ w / Bg ^ l : Nat) : Int))).getD
          (l - 1 - t) 0 * (Bg : Int) ^ (l - 1 - t)) := by
    intro t ht
    rw [Finset.mem_range] at ht
    rw [decompose_getD w Bg l x t ht, gadget_weight_eq w Bg l t hdiv ht, Nat.cast_mul,
      Nat.cast_pow]
    ring
  rw [Finset.sum_congr rfl hterm, ← Finset.mul_sum,
    Finset.sum_range_reflect (fun i => (balanced_digits Bg l
      (((x : Int) + ((2 ^ w / Bg ^ l / 2 : Nat) : Int)) / ((2 ^ w / Bg ^ l : Nat) : Int))).getD
      i 0 * (Bg : Int) ^ i) l, hM, hu]
  generalize ((2 ^ w / Bg ^ l : Nat) : Int) = U at *
  generalize ((x : Int) + ((2 ^ w / Bg ^ l / 2 : Nat) : Int)) / U = r at *
  obtain ⟨q, hq⟩ := balanced_digits_sum Bg l r
  refine ⟨q, ?_⟩
  linear_combination (-U) * hq

/-- The rounding error of the gadget decomposition has signed magnitude at most
half the last gadget weight, `2 ^ w / Bg ^ l / 2`. -/
theorem decomp_error_bound (w Bg l x : Nat) (hdiv : Bg ^ l ∣ 2 ^ w) :
    (torus_signed w (decomp_error w Bg l x)).natAbs ≤ 2 ^ w / Bg ^ l / 2 := by
  obtain ⟨q, hq⟩ := decompose_sum w Bg l x hdiv
  have hMpos : 0 < 2 ^ w := by positivity
  have hupos : 0 < 2 ^ w / Bg ^ l :=
    Nat.div_pos (Nat.le_of_dvd hMpos hdiv) (Nat.pos_of_dvd_of_pos hdiv hMpos)
  have hule : 2 ^ w / Bg ^ l ≤ 2 ^ w := Nat.div_le_self _ _
  have hM : (2 ^ w : Int) = ((2 ^ w : Nat) : Int) := by push_cast; rfl
  unfold decomp_error torus_signed
  rw [hq, hM]
  generalize 2 ^ w = M at *
  generalize M / Bg ^ l = u at *
  have hr1 := Int.ediv_mul_le ((x : Int) + ((u / 2 : Nat) : Int)) (b := (u : Int)) (by omega)
  have hr2 := Int.lt_ediv_add_one_mul_self ((x : Int) + ((u / 2 : Nat) : Int))
    (b := (u : Int)) (by omega)
  generalize ((x : Int) + ((u / 2 : Nat) : Int)) / (u : Int) = r at *
  have e1 : ((u : Int) * r - (M : Int) * q - (x : Int)) % (M : Int)
      = ((u : Int) * r - (x : Int)) % (M : Int) := by
    have : (u : Int) * r - (M : Int) * q - (x : Int)
        = ((u : Int) * r - (x : Int)) + (M : Int) * (-q) := by ring
    rw [this, Int.add_mul_emod_self_left]
  rw [e1]
  have hb1 : (u : Int) * r - (x : Int) ≤ ((u / 2 : Nat) : Int) := by nlinarith
  have hb2 : ((u / 2 : Nat) : Int) - (u : Int) < (u : Int) * r - (x : Int) := by nlinarith
  generalize (u : Int) * r - (x : Int) = e at *
  rcases le_or_lt 0 e with he | he
  · have hmod : e % (M : Int) = e := Int.emod_eq_of_lt he (by omega)
    rw [hmod]
    split_ifs <;> omega
  · have hmod : e % (M : Int) = e + M := by
      rw [← Int.add_emod_self, Int.emod_eq_of_lt (by omega) (by omega)]
    rw [hmod]
    split_ifs <;> omega

end Decomposition

/-! ## Evaluation of the claims on the demonstration parameters -/

section Witnesses

/-- Witness of C1: the demonstration parameters, key and engine started in
state `1`. -/
theorem tlwe_round_trip_witness :
    TLWElvl0.decrypt_bool demoParams
      (TLWElvl0.encrypt demoParams demoGen demoKey true 1).1 demoKey = true :=
  tlwe_round_trip demoParams demoGen demoKey true 1 (by decide) (by decide!)

/-- Witness of C2: the polynomial `1 + 0·X` under the demonstration parameters,
engine started in state `2`. -/
theorem trlwe_round_trip_witness :
    (TRLWE.decrypt_poly_bool demoParams
      (TRLWE.encrypt demoParams demoGen demoKey [true, false] 2).1 demoKey).length
      = demoParams.N ∧
    ∀ j, j < demoParams.N →
      (TRLWE.decrypt_poly_bool demoParams
        (TRLWE.encrypt demoParams demoGen demoKey [true, false] 2).1 demoKey).getD j false
        = [true, false].getD j false :=
  trlwe_round_trip demoParams demoGen demoKey [true, false] 2 (by decide) (by decide!)

/-- Witness of C3, in the order of `test_external_product`: the message
`1 + 0·X` is encrypted from engine state `2`, which leaves the engine in state
`6`, where the TRGSW encryption of `-1` starts; both coefficients of the
decryption are the complements of those of the message. -/
theorem external_product_unit_witness :
    (TRLWE.decrypt_poly_bool demoParams
        (external_product demoParams (TRGSW.encrypt demoParams demoGen demoKey (-1) 6).1
          (TRLWE.encrypt demoParams demoGen demoKey [true, false] 2).1)
        demoKey).getD 0 false
      = (if (-1 : Int) = 1 then [true, false].getD 0 false else !([true, false].getD 0 false)) ∧
    (TRLWE.decrypt_poly_bool demoParams
        (external_product demoParams (TRGSW.encrypt demoParams demoGen demoKey (-1) 6).1
          (TRLWE.encrypt demoParams demoGen demoKey [true, false] 2).1)
        demoKey).getD 1 false
      = (if (-1 : Int) = 1 then [true, false].getD 1 false else !([true, false].getD 1 false)) := by
  have h := external_product_unit demoParams demoGen demoKey [true, false] (-1) 6 2
    (by decide) (Or.inr rfl) (by decide!)
  exact ⟨h 0 (by decide), h 1 (by decide)⟩

/-- Witness of C4, in the order of `test_cmux`: the branches `1 + 0·X` and
`0 + 0·X` are encrypted from the engine states `2` and `6`, the selector `1`
from state `10`. -/
theorem cmux_select_witness :
    (TRLWE.decrypt_poly_bool demoParams
        (cmux demoParams (TRGSW.encrypt demoParams demoGen demoKey (if true then 1 else 0) 10).1
          (TRLWE.encrypt demoParams demoGen demoKey [true, false] 2).1
          (TRLWE.encrypt demoParams demoGen demoKey [false, false] 6).1)
        demoKey).getD 0 false
      = (if true then [true, false].getD 0 false else [false, false].getD 0 false) ∧
    (TRLWE.decrypt_poly_bool demoParams
        (cmux demoParams (TRGSW.encrypt demoParams demoGen demoKey (if true then 1 else 0) 10).1
          (TRLWE.encrypt demoParams demoGen demoKey [true, false] 2).1
          (TRLWE.encrypt demoParams demoGen demoKey [false, false] 6).1)
        demoKey).getD 1 false
      = (if true then [true, false].getD 1 false else [false, false].getD 1 false) := by
  have h := cmux_select demoParams demoGen demoKey [true, false] [false, false] true 10 2 6
    (by decide) (by decide!)
  exact ⟨h 0 (by decide), h 1 (by decide)⟩

end Witnesses

end TFHE
